import Mathlib

/-!
Verification development for the IA_MEGASORTE ensemble engine.

Shallow embedding, translated from the Python sources:
* `training/core/brain_hub.py`   — `jaccard`, `BrainHub` (meta weights, candidate
  collection/calibration, diversification, learning);
* `training/trainer_v2.py`       — the incremental replay/training loop
  (`treinar_pendencias`, checkpoint handling);
* `training/core/base_brain.py` and
  `training/brains/statistical/freq_global_brain.py` — brain state persistence
  and the frequency-global brain.

Python floats are modelled as `ℚ` (all constants in the sources are decimal
literals), Python ints as `ℤ`/`ℕ`, Python lists as `List`, Python dicts as
insertion-ordered association lists, and Python exceptions as `Except String`.
`random.uniform`/`random.choices` draws are modelled as explicit streams of
rational numbers passed as arguments.
-/

namespace MegaSorte

/-- From `brain_hub.py`: `jaccard(a, b)` — set Jaccard similarity of two integer
lists; returns `inter / uni` and `0.0` when the union is empty. -/
def jaccard (a b : List ℤ) : ℚ :=
  let sa := a.toFinset
  let sb := b.toFinset
  let inter := (sa ∩ sb).card
  let uni := (sa ∪ sb).card
  if uni = 0 then 0 else (inter : ℚ) / (uni : ℚ)

/-- One candidate dict as built by `BrainHub.generate_candidates`:
`{"jogo": ..., "score_raw": ..., "brain_id": ..., "rel": ...}`, later extended
with `"consensus_votes"` and `"score"` (modelled as fields initialised to `0`). -/
structure Cand where
  jogo : List ℤ
  raw : ℚ
  brain : String
  rel : ℚ
  votes : ℕ := 0
  score : ℚ := 0
  deriving DecidableEq, Repr

/-- The observable behaviour of one registered brain during a single generation
round for a fixed `(context, size, per_brain)` request: its `enabled` flag, the
value of `evaluate_context(context)`, the outcome of `generate(...)` and the
outcome of `score_game(j, context)` per game.  A raising call is an `Except.error`. -/
structure RBrain where
  id : String
  enabled : Bool
  rel : ℚ
  gen : Except String (List (List ℤ))
  scoreGame : List ℤ → Except String ℚ

/-- One value of `BrainHub.meta[brain_id]`: `{"usos", "pontos", "q14", "q15"}`. -/
structure MetaEntry where
  usos : ℕ
  pontos : ℤ
  q14 : ℕ
  q15 : ℕ
  deriving DecidableEq, Repr

/-- The `BrainHub` configuration and meta state (the `brains` list is passed
separately as `List RBrain`). -/
structure Hub where
  explorationRate : ℚ
  maxBrainShare : ℚ
  quotaEnabled : Bool
  quotaMaxPerBrain : ℕ
  consensusEnabled : Bool
  consensusBonus : ℚ
  consensusMinVotes : ℕ
  meta : List (String × MetaEntry)

/-- `BrainHub.__init__`: clamps each parameter exactly as the constructor does. -/
def mkHub (explorationRate maxBrainShare : ℚ) (quotaEnabled : Bool)
    (quotaMaxPerBrain : ℕ) (consensusEnabled : Bool) (consensusBonus : ℚ)
    (consensusMinVotes : ℕ) : Hub where
  explorationRate := max 0 (min (25/100) explorationRate)
  maxBrainShare := max (1/10) (min (7/10) maxBrainShare)
  quotaEnabled := quotaEnabled
  quotaMaxPerBrain := quotaMaxPerBrain
  consensusEnabled := consensusEnabled
  consensusBonus := max 0 consensusBonus
  consensusMinVotes := max 2 consensusMinVotes
  meta := []

/-- `BrainHub._meta_weight(brain_id)`: `1.0` when the brain has no meta entry,
otherwise `clamp(1 + (media/15)*0.15 + bonus*0.25, 0.85, 1.25)` with
`media = pontos / max(1, usos)` and `bonus = (q14*0.6 + q15*1.2) / max(1, usos)`. -/
def metaWeight (h : Hub) (brainId : String) : ℚ :=
  match (h.meta.find? (fun p => p.1 == brainId)).map Prod.snd with
  | none => 1
  | some m =>
    let usos : ℚ := (max 1 m.usos : ℕ)
    let media : ℚ := (m.pontos : ℚ) / usos
    let bonus : ℚ := ((m.q14 : ℚ) * (6/10) + (m.q15 : ℚ) * (12/10)) / usos
    let peso : ℚ := 1 + (media / 15) * (15/100) + bonus * (25/100)
    max (85/100) (min (125/100) peso)

/-- The meta side of `BrainHub.learn`: get-or-create the entry (a
`defaultdict` producing `{"usos": 0, "pontos": 0, "q14": 0, "q15": 0}`), then
`usos += 1`, `pontos += pontos_arg`, `q14 += 1` when `pontos_arg >= 14`,
`q15 += 1` when `pontos_arg >= 15`. -/
def metaUpdate (m : MetaEntry) (pontos : ℤ) : MetaEntry where
  usos := m.usos + 1
  pontos := m.pontos + pontos
  q14 := m.q14 + (if pontos ≥ 14 then 1 else 0)
  q15 := m.q15 + (if pontos ≥ 15 then 1 else 0)

/-- `BrainHub.learn` restricted to the `self.meta` update (the dispatch to the
originating brain is modelled per brain, e.g. in `FG.learn` below). -/
def hubLearnMeta (h : Hub) (brainId : String) (pontos : ℤ) : Hub :=
  let entry := ((h.meta.find? (fun p => p.1 == brainId)).map Prod.snd).getD
    ⟨0, 0, 0, 0⟩
  let rest := h.meta.filter (fun p => p.1 ≠ brainId)
  { h with meta := (brainId, metaUpdate entry pontos) :: rest }

/-- Ascending sort of an integer list: Python's `sorted(j)` (stable; on `ℤ`
keys stability is irrelevant). -/
def sortAsc (l : List ℤ) : List ℤ := l.insertionSort (· ≤ ·)

/-- The inner loop of `BrainHub.generate_candidates` over `jogos = b.generate(...)`:
for each game `j`, `raw = b.score_game(j, context)` (an exception aborts the
whole call) and the dict `{"jogo": sorted(j), "score_raw": raw, "brain_id": b.id,
"rel": rel}` is appended to `cand`. -/
def scoreFold (b : RBrain) : List Cand → List (List ℤ) → Except String (List Cand)
  | acc, [] => .ok acc
  | acc, j :: js =>
    match b.scoreGame j with
    | .error e => .error e
    | .ok raw => scoreFold b (acc ++ [{
        jogo := sortAsc j
        raw := raw
        brain := b.id
        rel := b.rel }]) js

/-- One iteration of the `for b in self.brains` loop in `generate_candidates`:
skip when `not b.enabled` or `rel <= 0`, otherwise run `generate` and score
each produced game. -/
def collectBrain (acc : List Cand) (b : RBrain) : Except String (List Cand) :=
  if ¬ b.enabled then .ok acc
  else if b.rel ≤ 0 then .ok acc
  else
    match b.gen with
    | .error e => .error e
    | .ok jogos => scoreFold b acc jogos

/-- The whole collection loop of `generate_candidates` (an uncaught exception in
any brain's `generate`/`score_game` aborts it, as in the source, which has no
`try`/`except` around the loop). -/
def collectFrom : List Cand → List RBrain → Except String (List Cand)
  | acc, [] => .ok acc
  | acc, b :: bs =>
    match collectBrain acc b with
    | .error e => .error e
    | .ok acc' => collectFrom acc' bs

/-- `raw_scores[brain_id]` as recoverable from the collected list: the raw
scores of the candidates carrying that `brain_id`, in collection order. -/
def scoresOf (cand : List Cand) (brainId : String) : List ℚ :=
  (cand.filter (fun c => c.brain == brainId)).map (fun c => c.raw)

/-- Python `min` over a nonempty list (`0` supplied for the impossible empty
case, mirroring the unreachable `(0.0, 0.0)` default of `score_bounds.get`). -/
def minQ : List ℚ → ℚ
  | [] => 0
  | x :: xs => xs.foldl min x

/-- Python `max` over a nonempty list (same remark as `minQ`). -/
def maxQ : List ℚ → ℚ
  | [] => 0
  | x :: xs => xs.foldl max x

/-- `len(votes_map.get(tuple(c["jogo"]), set()))`: the number of distinct brain
ids that proposed this exact sorted game in the batch. -/
def votesOf (cand : List Cand) (c : Cand) : ℕ :=
  (((cand.filter (fun d => d.jogo == c.jogo)).map (fun d => d.brain)).dedup).length

/-- Per-brain min-max normalisation of `c`'s raw score inside the batch `cand`
(`norm = (raw - min) / (max - min)` when there is spread, else `0.5`). -/
def normOf (cand : List Cand) (c : Cand) : ℚ :=
  let minS := minQ (scoresOf cand c.brain)
  let maxS := maxQ (scoresOf cand c.brain)
  if minS < maxS then (c.raw - minS) / (maxS - minS) else 1/2

/-- One iteration of the scoring pass of `generate_candidates` (the body of
`for c in cand:` after `score_bounds` is built) on the `i`-th candidate:
normalisation, calibration by `_meta_weight`, exploration noise
`noise i = random.uniform(0, exploration_rate)`, and the optional consensus
bonus. -/
def finishOne (h : Hub) (cand : List Cand) (noise : ℕ → ℚ) (p : ℕ × Cand) : Cand :=
  let i := p.1
  let c := p.2
  let norm := normOf cand c
  let mw := metaWeight h c.brain
  let calibrated := (norm * (65/100) + c.rel * (35/100)) * mw
  let score0 := calibrated * (1 - h.explorationRate) + noise i
  let votes := votesOf cand c
  if h.consensusEnabled then
    { c with
      votes := votes
      score := if h.consensusMinVotes ≤ votes then score0 + h.consensusBonus
               else score0 }
  else { c with score := score0 }

/-- The whole scoring pass of `generate_candidates`. -/
def finishCand (h : Hub) (cand : List Cand) (noise : ℕ → ℚ) : List Cand :=
  cand.enum.map (finishOne h cand noise)

/-- `BrainHub.generate_candidates(context, size, per_brain)`: collect, then
`if not cand: return []`, then score every candidate. -/
def generateCandidates (h : Hub) (brains : List RBrain) (noise : ℕ → ℚ) :
    Except String (List Cand) :=
  match collectFrom [] brains with
  | .error e => .error e
  | .ok cand => if cand = [] then .ok [] else .ok (finishCand h cand noise)

/-- `brain_counts[bid]` maintained by `diversify`: how many accepted candidates
come from this brain. -/
def countBrain (acc : List Cand) (brainId : String) : ℕ :=
  acc.countP (fun c => c.brain == brainId)

/-- One walk of `pick_with_threshold(threshold)` over the sorted candidate
list: break once `top_n` accepted; skip a candidate whose brain reached
`max_per_brain`; accept only when its Jaccard similarity to every
already-accepted candidate is `< threshold`.  The accumulator keeps, next to
each accepted candidate, the threshold in force when it was accepted (the
source stores only the candidate; `Prod.fst` recovers it). -/
def pickPass (topN maxPerBrain : ℕ) (thr : ℚ) :
    List Cand → List (Cand × ℚ) → List (Cand × ℚ)
  | [], acc => acc
  | c :: cs, acc =>
    if topN ≤ acc.length then acc
    else if maxPerBrain ≤ countBrain (acc.map Prod.fst) c.brain then
      pickPass topN maxPerBrain thr cs acc
    else if (acc.map Prod.fst).all (fun e => decide (jaccard c.jogo e.jogo < thr)) then
      pickPass topN maxPerBrain thr cs (acc ++ [(c, thr)])
    else pickPass topN maxPerBrain thr cs acc

/-- Proof scaffolding (not part of the source): the walk of
`pick_with_threshold` specialised to candidate sets whose games are pairwise
disjoint, where the similarity check always passes and only the per-brain
quota and the `top_n` break decide acceptance.  `pickPass_eq_pickQuota` below
proves the specialisation; its recursion contains no rational comparison, so
concrete runs evaluate by `rfl`. -/
def pickQuota (topN maxPerBrain : ℕ) (thr : ℚ) :
    List Cand → List (Cand × ℚ) → List (Cand × ℚ)
  | [], acc => acc
  | c :: cs, acc =>
    if topN ≤ acc.length then acc
    else if maxPerBrain ≤ countBrain (acc.map Prod.fst) c.brain then
      pickQuota topN maxPerBrain thr cs acc
    else pickQuota topN maxPerBrain thr cs (acc ++ [(c, thr)])

/-- The relaxation loop of `diversify`:
`while len(escolhidos) < top_n and relax < 0.98: relax = min(0.98, relax+0.03);
pick_with_threshold(relax)`.  `fuel` only bounds the recursion — the loop
always stops on its own because `relax` reaches `0.98` after finitely many
`+0.03` steps (or the batch fills), so every sufficient fuel value yields the
loop's exit value. -/
def relaxLoop (cands : List Cand) (topN maxPerBrain : ℕ) :
    ℕ → ℚ → List (Cand × ℚ) → List (Cand × ℚ)
  | 0, _, acc => acc
  | fuel + 1, relax, acc =>
    if acc.length < topN ∧ relax < 98/100 then
      let relax' := min (98/100) (relax + 3/100)
      relaxLoop cands topN maxPerBrain fuel relax'
        (pickPass topN maxPerBrain relax' cands acc)
    else acc

/-- Fuel sufficient for `relaxLoop` starting at `relax`: one more than the
number of `+0.03` steps needed to lift `relax` to `0.98`. -/
def relaxFuel (relax : ℚ) : ℕ := (⌈(98/100 - relax) * (100/3)⌉).toNat + 1

/-- `BrainHub.diversify(candidatos, top_n, max_sim, max_per_brain)` with the
acceptance thresholds kept alongside the accepted candidates: sort by score
descending (stable, like Python's `sort(key=..., reverse=True)`), one pass at
`max_sim`, then the relaxation loop, then `escolhidos[:top_n]`. -/
def diversifyAnn (candidatos : List Cand) (topN : ℕ) (maxSim : ℚ)
    (maxPerBrain : ℕ) : List (Cand × ℚ) :=
  let sorted := candidatos.insertionSort (fun a b => b.score ≤ a.score)
  let first := pickPass topN maxPerBrain maxSim sorted []
  (relaxLoop sorted topN maxPerBrain (relaxFuel maxSim) maxSim first).take topN

/-- `BrainHub.diversify` as the source returns it (candidates only). -/
def diversify (candidatos : List Cand) (topN : ℕ) (maxSim : ℚ)
    (maxPerBrain : ℕ) : List Cand :=
  (diversifyAnn candidatos topN maxSim maxPerBrain).map Prod.fst

/-- `BrainHub.generate_games(context, size, per_brain, top_n)`: derives
`max_sim` (0.80 for size 15 else 0.88, `+0.05` capped at 0.95 when candidate
density `< 2.0`), the per-brain cap `max(2, int(top_n * share))` (share bumped
by 0.1 capped at 0.5 for sizes other than 15, quota cap applied when enabled),
then diversifies. -/
def generateGames (h : Hub) (brains : List RBrain) (noise : ℕ → ℚ)
    (size topN : ℕ) : Except String (List Cand) :=
  match generateCandidates h brains noise with
  | .error e => .error e
  | .ok candidatos =>
    let maxSim0 : ℚ := if size = 15 then 80/100 else 88/100
    let densidade : ℚ := (candidatos.length : ℚ) / (max 1 topN : ℕ)
    let maxSim := if densidade < 2 then min (95/100) (maxSim0 + 5/100) else maxSim0
    let share := if size = 15 then h.maxBrainShare
                 else min (5/10) (h.maxBrainShare + 1/10)
    let maxPerBrain0 := max 2 (⌊(topN : ℚ) * share⌋).toNat
    let maxPerBrain := if h.quotaEnabled ∧ 0 < h.quotaMaxPerBrain then
        min maxPerBrain0 h.quotaMaxPerBrain
      else maxPerBrain0
    .ok (diversify candidatos topN maxSim maxPerBrain)

/-! ### Replay/training loop (`training/trainer_v2.py`) -/

/-- Observable actions of one `treinar_pendencias` run, in program order:
`attempt` = `_insert_tentativa`, `memory` = a deduplicating
`_insert_memoria_forte` insert, `learnEv` = `hub.learn` dispatch,
`ckpt` = `_set_checkpoint`, `saveAll` = `hub.save_all()`. -/
inductive TrainEvent where
  | attempt (pos : ℕ)
  | memory (pos : ℕ)
  | learnEv (pos : ℕ)
  | ckpt (pos : ℕ)
  | saveAll
  deriving DecidableEq, Repr

/-- The historical position an event belongs to (none for `save_all`). -/
def TrainEvent.posOf : TrainEvent → Option ℕ
  | .attempt p => some p
  | .memory p => some p
  | .learnEv p => some p
  | .ckpt p => some p
  | .saveAll => none

/-- The database as `treinar_pendencias` sees it: the `concursos` table
(`concurso` primary key with its drawn numbers, in ascending `concurso` order —
`_fetch_all_concursos` uses `ORDER BY concurso ASC`) and the checkpoint row
(`_get_checkpoint`, `0` when absent). -/
structure TrainDb where
  rows : List (ℕ × List ℤ)
  ck : ℕ

/-- `_fetch_all_concursos(conn)`. -/
def fetchAllConcursos (db : TrainDb) : List ℕ := db.rows.map Prod.fst

/-- `_fetch_result(conn, concurso)`: `None` when the row is absent (the row is
present exactly when that draw's outcome is known). -/
def fetchResult (db : TrainDb) (c : ℕ) : Option (List ℤ) :=
  (db.rows.find? (fun r => r.1 == c)).map Prod.snd

/-- `concursos[-2]` (`max_treino`); only used when `len(concursos) >= 2`. -/
def maxTreino (db : TrainDb) : ℕ :=
  (((fetchAllConcursos db).reverse).drop 1).headD 0

/-- `pendentes = [c for c in concursos if c > ck and c <= max_treino]`,
truncated by `limite_concursos` when given. -/
def pendentesOf (db : TrainDb) (limite : Option ℕ) : List ℕ :=
  let pend0 := (fetchAllConcursos db).filter
    (fun c => decide (db.ck < c ∧ c ≤ maxTreino db))
  match limite with
  | none => pend0
  | some l => pend0.take l

/-- The per-item block inside the `for item in top_por_tamanho` loop:
`_insert_tentativa`, the conditional `_insert_memoria_forte` (the flag tells
whether `acertos >= SALVAR_MEMORIA_MIN`), then `hub.learn`.  The abstract
`flags` oracle stands for the evaluated items of the position (their number and
memory-threshold outcomes), which depend on the Hub run and the stored draws. -/
def stepBody (p : ℕ) (itemFlags : List Bool) : List TrainEvent :=
  (itemFlags.map (fun f =>
    TrainEvent.attempt p :: (if f then [TrainEvent.memory p] else [])
      ++ [TrainEvent.learnEv p])).flatten

/-- One processed position of the training loop (`idx` is the 1-based loop
counter of `enumerate(pbar, 1)`): the per-item persistence/learning block,
then `_set_checkpoint(conn, concurso_n)`, then the periodic
`hub.save_all()` when `idx % PERSISTIR_A_CADA == 0` (`PERSISTIR_A_CADA = 5`). -/
def stepEvents (idx p : ℕ) (itemFlags : List Bool) : List TrainEvent :=
  stepBody p itemFlags ++ [TrainEvent.ckpt p]
    ++ (if idx % 5 = 0 then [TrainEvent.saveAll] else [])

/-- One iteration of the `for idx, concurso_n in enumerate(pbar, 1)` loop on
the pair `q = (idx, concurso_n)`: `continue` (no events) when
`_fetch_result(conn, concurso_n + 1)` is unavailable, else the full
per-position processing. -/
def stepOf (db : TrainDb) (flags : ℕ → List Bool) (q : ℕ × ℕ) :
    List TrainEvent :=
  match fetchResult db (q.2 + 1) with
  | none => []
  | some _ => stepEvents q.1 q.2 (flags q.2)

/-- `treinar_pendencias(conn, limite_concursos)` as its trace of observable
events: fatal when fewer than two draws are stored; otherwise every pending
position is handled in order and a final `hub.save_all()` closes the run. -/
def treinarPendencias (db : TrainDb) (limite : Option ℕ) (flags : ℕ → List Bool) :
    Except String (List TrainEvent) :=
  if (fetchAllConcursos db).length < 2 then
    .error "Banco tem poucos concursos."
  else
    .ok ((((pendentesOf db limite).enumFrom 1).map (stepOf db flags)).flatten
      ++ [TrainEvent.saveAll])

/-- The succession of values `_set_checkpoint` writes during one run. -/
def ckptWrites (tr : List TrainEvent) : List ℕ :=
  tr.filterMap (fun e => match e with | .ckpt p => some p | _ => none)

/-- The checkpoint row after the run: the last written value, or the initial
checkpoint when nothing was written. -/
def finalCkpt (tr : List TrainEvent) (ck : ℕ) : ℕ := (ckptWrites tr).getLastD ck

/-! ### Brain state persistence and the frequency-global brain
(`training/core/base_brain.py`, `training/brains/statistical/freq_global_brain.py`) -/

/-- `_utils.UNIVERSO = list(range(1, 32))` (Dia de Sorte, `universo_max = 31`). -/
def UNIVERSO : List ℤ := (List.range 31).map (fun i => (i : ℤ) + 1)

/-- Python-dict lookup with default `0` (`freq.get(k, 0)` / `Counter.__getitem__`). -/
def aget (l : List (ℤ × ℚ)) (k : ℤ) : ℚ :=
  ((l.find? (fun p => p.1 == k)).map Prod.snd).getD 0

/-- Python-dict assignment `d[k] = v`: update the (unique) existing entry in
place, else append — insertion-ordered dict semantics. -/
def aset : List (ℤ × ℚ) → ℤ → ℚ → List (ℤ × ℚ)
  | [], k, v => [(k, v)]
  | p :: t, k, v => if p.1 = k then (k, v) :: t else p :: aset t k v

/-- The key sequence of a dict (insertion order). -/
def akeys (l : List (ℤ × ℚ)) : List ℤ := l.map Prod.fst

/-- `d[k] += delta` on a `Counter` (missing keys read as `0`). -/
def aincr (l : List (ℤ × ℚ)) (k : ℤ) (delta : ℚ) : List (ℤ × ℚ) :=
  aset l k (aget l k + delta)

/-- The dict value of `UNIVERSO` zeros: `Counter({i: 0 for i in UNIVERSO})`. -/
def universeZeros : List (ℤ × ℚ) := UNIVERSO.map (fun d => (d, 0))

/-- In-memory state of `StatFreqGlobalBrain`: the `freq` counter, the
`total_resultados` count, and `self.state` (`blob`) as last assigned — `none`
is the empty dict `{}`, `some (f, t)` is
`{"freq": {str(k): float(v) ...}, "total_resultados": t}` with the integer
keys kept as integers (`str`/`int` on ℤ keys is an exact round trip). -/
structure FG where
  freq : List (ℤ × ℚ)
  total : ℕ
  blob : Option (List (ℤ × ℚ) × ℕ)
  deriving DecidableEq, Repr

/-- The brain as `__init__` leaves it against an empty store: `freq` all
zeros over `UNIVERSO`, no results seen, `self.state = {}`. -/
def initFG : FG where
  freq := universeZeros
  total := 0
  blob := none

/-- Shape invariant of every reachable `freq` dict: the `UNIVERSO`-keyed
prefix laid down by `__init__`, followed by any keys appended later, all keys
distinct (proof scaffolding for the persistence round trip). -/
def freqKeysInv (L : List (ℤ × ℚ)) : Prop :=
  ∃ P E, L = P ++ E ∧ akeys P = akeys universeZeros ∧ (akeys L).Nodup

/-- Invariant of every reachable brain state: well-shaped `freq`, and
`self.state` mirrors `freq`/`total` unless nothing was ever learned. -/
def fgInv (s : FG) : Prop :=
  freqKeysInv s.freq ∧ (s.blob = some (s.freq, s.total) ∨ s = initFG)

/-- `StatFreqGlobalBrain.learn`: add one to `freq[d]` for each drawn `d` of the
real next outcome, count the result, add the 14/15-point reinforcement bonus to
the played numbers, then mirror everything into `self.state`
(`_perf_update` only writes audit tables and is not part of the brain state). -/
def fgLearn (s : FG) (jogo resultado : List ℤ) (pontos : ℤ) : FG :=
  let s1 := if resultado ≠ [] then
      { s with
        freq := resultado.foldl (fun f d => aincr f d 1) s.freq
        total := s.total + 1 }
    else s
  let s2 := if 14 ≤ pontos ∧ jogo ≠ [] then
      let bonus : ℚ := if 15 ≤ pontos then 1/2 else 1/4
      { s1 with freq := jogo.foldl (fun f d => aincr f d bonus) s1.freq }
    else s1
  { s2 with blob := some (s2.freq, s2.total) }

/-- One recorded `learn` call (the arguments that reach `fgLearn`). -/
structure LearnCall where
  jogo : List ℤ
  resultado : List ℤ
  pontos : ℤ

/-- A brain state reached from a fresh brain by a history of `learn` calls. -/
def fgRun (hist : List LearnCall) : FG :=
  hist.foldl (fun s a => fgLearn s a.jogo a.resultado a.pontos) initFG

/-- `BaseBrain.save_state`: serialize `self.state` (JSON round-trips the dict
losslessly; the blob value itself is the persisted payload). -/
def saveStateFG (s : FG) : Option (List (ℤ × ℚ) × ℕ) := s.blob

/-- `BaseBrain.load_state` + `StatFreqGlobalBrain.load_state`: read the blob
into `self.state` (`{}` when the row is absent), reset `freq` to zeros over
`UNIVERSO`, copy every stored `freq` entry over it, and read
`total_resultados` (default `0`). -/
def loadStateFG (blob : Option (List (ℤ × ℚ) × ℕ)) : FG :=
  match blob with
  | none => initFG
  | some (raw, t) =>
    { freq := raw.foldl (fun f p => aset f p.1 p.2) universeZeros
      total := t
      blob := some (raw, t) }

/-- `StatFreqGlobalBrain.evaluate_context`. -/
def evaluateContextFG (s : FG) : ℚ := if 0 < s.total then 1 else 6/10

/-- `StatFreqGlobalBrain.score_game`: `0` for the empty game or a non-positive
maximal frequency, else the mean of `freq.get(d, 0) / max(freq.values())`. -/
def scoreGameFG (s : FG) (jogo : List ℤ) : ℚ :=
  if jogo = [] then 0
  else
    let maxf := maxQ (s.freq.map Prod.snd)
    if maxf ≤ 0 then 0
    else (jogo.foldl (fun acc d => acc + aget s.freq d / maxf) 0) / (jogo.length : ℚ)

/-- `random.choices(pool, weights, k=1)[0]` given the uniform draw scaled by
the total weight: walk the cumulative weights. -/
def chooseWeighted : List (ℤ × ℚ) → ℚ → ℤ
  | [], _ => 0
  | [(d, _)], _ => d
  | (d, w) :: rest, target => if target < w then d else chooseWeighted rest (target - w)

/-- `_utils.weighted_sample_without_replacement(weights, k)`: pool starts at
`UNIVERSO`; each draw weighs `x` as `max(0.0001, weights.get(x, 0.001))`,
removes the pick from the pool, and the result is returned sorted.  `wmap`
is the weights dict (`none` = key absent); `rnd t` is the `t`-th uniform draw
in `[0, 1)`; returns the picks (pre-sort) and the next draw index. -/
def wswrGo (wmap : ℤ → Option ℚ) (rnd : ℕ → ℚ) :
    ℕ → List ℤ → ℕ → List ℤ × ℕ
  | 0, _, t => ([], t)
  | k + 1, pool, t =>
    let w : ℤ → ℚ := fun x => max (1/10000) ((wmap x).getD (1/1000))
    let total := (pool.map w).sum
    let pick := chooseWeighted (pool.map (fun d => (d, w d))) (rnd t * total)
    let next := wswrGo wmap rnd k (pool.erase pick) (t + 1)
    (pick :: next.1, next.2)

/-- `weighted_sample_without_replacement` proper (`sorted(result)` at the end). -/
def wswr (wmap : ℤ → Option ℚ) (k : ℕ) (rnd : ℕ → ℚ) (t : ℕ) : List ℤ × ℕ :=
  let r := wswrGo wmap rnd k UNIVERSO t
  (sortAsc r.1, r.2)

/-- The per-game body of `StatFreqGlobalBrain.generate`'s `for _ in range(n)`
loop, threading the random-draw index.  `flat` models the float `w ** 0.70`
weight flattening and `pyRound` the float `int(round(...))` — both are opaque
real-valued operations abstracted as function parameters. -/
def genGamesFG (weights : ℤ → ℚ) (core : List ℤ) (size : ℕ) (flat : ℚ → ℚ)
    (pyRound : ℚ → ℤ) (rnd : ℕ → ℚ) : ℕ → ℕ → List (List ℤ)
  | 0, _ => []
  | m + 1, t =>
    let fracCore : ℚ := if size = 15 then 7/10 else 65/100
    let kCore : ℕ := max 0 (min size (pyRound ((size : ℚ) * fracCore)).toNat)
    let r1 := if 0 < kCore then
        wswr (fun d => if d ∈ core then some (weights d) else none) kCore rnd t
      else ([], t)
    let jogo1 : Finset ℤ := r1.1.toFinset
    let faltam := size - jogo1.card
    let r2 := if 0 < faltam then
        wswr (fun d => if d ∈ UNIVERSO ∧ d ∉ jogo1 then some (flat (weights d))
          else none) faltam rnd r1.2
      else ([], r1.2)
    let jogo : Finset ℤ := jogo1 ∪ r2.1.toFinset
    jogo.sort (· ≤ ·) :: genGamesFG weights core size flat pyRound rnd m r2.2

/-- `StatFreqGlobalBrain.generate(context, size, n)`: smoothed weights
`freq.get(d, 0) + 1`, the frequency-ranked core (18 for size 15, else 22,
descending stable sort), then `n` games sampled core-first. -/
def generateFG (s : FG) (size n : ℕ) (flat : ℚ → ℚ) (pyRound : ℚ → ℤ)
    (rnd : ℕ → ℚ) : List (List ℤ) :=
  let weights : ℤ → ℚ := fun d => aget s.freq d + 1
  let coreSize : ℕ := if size = 15 then 18 else 22
  let ranked := UNIVERSO.insertionSort (fun a b => weights b ≤ weights a)
  let core := ranked.take coreSize
  genGamesFG weights core size flat pyRound rnd n 0

/-! ### The step-sequences brain's unpersisted score cache
(`training/brains/brain_step_sequences.py`) -/

/-- One `pattern_stats[pid]` entry:
`{"uses", "top_hits", "avg_score", "best_hits", "score_count"}` (missing
fields read as zero). -/
structure PatternStats where
  uses : ℕ
  topHits : ℕ
  avgScore : ℚ
  bestHits : ℕ
  scoreCount : ℕ
  deriving DecidableEq, Repr

/-- The per-game meta dict `_track_meta` caches in `_recent_meta`
(`score_game` reads only `pattern_id`; the other fields are carried for
fidelity). -/
structure MetaSS where
  patternId : String
  start : ℤ
  mutation : Bool
  relaxed : Bool
  deltas : List ℤ
  deriving DecidableEq, Repr

/-- The state of `HeuristicStepSequencesBrain` as `score_game` observes it:
`self.state["pattern_stats"]` (the only data `save_state` persists via
`BaseBrain`) and the in-memory `_recent_meta` cache, which no persistence
path writes or restores. -/
structure SS where
  patternStats : List (String × PatternStats)
  recentMeta : List (List ℤ × MetaSS)
  deriving DecidableEq, Repr

/-- `HeuristicStepSequencesBrain.score_game`: `0.0` for the empty game;
`0.4` when the game has no `_recent_meta` entry or the cached meta has a
falsy `pattern_id`; else
`min(1.0, 0.35 + min(0.6, avg_score/15) + min(0.2, 0.02*top_hits + 0.01*best_hits))`
from the pattern's persisted stats. -/
def scoreGameSS (s : SS) (jogo : List ℤ) : ℚ :=
  if jogo = [] then 0
  else
    match (s.recentMeta.find? (fun p => p.1 == jogo)).map Prod.snd with
    | none => 4/10
    | some meta =>
      if meta.patternId = "" then 4/10
      else
        let stats := ((s.patternStats.find? (fun p => p.1 == meta.patternId)).map
          Prod.snd).getD ⟨0, 0, 0, 0, 0⟩
        let base : ℚ := 35/100 + min (6/10) (stats.avgScore / 15)
        let bonus : ℚ := min (2/10)
          ((2/100) * (stats.topHits : ℚ) + (1/100) * (stats.bestHits : ℚ))
        min 1 (base + bonus)

/-- `save_state` (which serializes `self.state`, holding only
`pattern_stats`/`last_updated`) followed by a fresh `__init__` +
`load_state`: `pattern_stats` comes back, but `_recent_meta` is the freshly
initialized empty dict — nothing ever persists it. -/
def reloadSS (s : SS) : SS where
  patternStats := s.patternStats
  recentMeta := []

/-- The game one successful `_build_candidate` draw produces from base
pattern `P1 = [2,2,1,2,1,1,2,2,1,2,1,1,2,2]` at `start = 1`, unmutated
(14 steps, no wrap below 25, no collision; 8 deltas equal 2, so the
`min_twos = 3` filter passes). -/
def jogoSS : List ℤ := [1, 3, 5, 6, 8, 9, 10, 12, 14, 15, 17, 18, 19, 21, 23]

/-- The `_recent_meta` entry `_track_meta` records for that game. -/
def metaSSP1 : MetaSS where
  patternId := "P1-s15"
  start := 1
  mutation := false
  relaxed := false
  deltas := [2, 2, 1, 2, 1, 1, 2, 2, 1, 2, 1, 1, 2, 2]

/-- The brain state after that one `generate` call on a fresh brain:
`_build_candidate` created the `P1-s15` stats entry (`uses = 1`, everything
else zero) and `_track_meta` cached the game's meta. -/
def ssOrig : SS where
  patternStats := [("P1-s15", ⟨1, 0, 0, 0, 0⟩)]
  recentMeta := [(jogoSS, metaSSP1)]

instance {ε α : Type} [DecidableEq ε] [DecidableEq α] : DecidableEq (Except ε α) :=
  fun a b =>
    match a, b with
    | .error e, .error f =>
      if h : e = f then isTrue (by rw [h])
      else isFalse (fun hh => h (by injection hh))
    | .ok x, .ok y =>
      if h : x = y then isTrue (by rw [h])
      else isFalse (fun hh => h (by injection hh))
    | .error _, .ok _ => isFalse (fun hh => by injection hh)
    | .ok _, .error _ => isFalse (fun hh => by injection hh)

/-! ### Concrete fixtures (used by counterexamples and witnesses) -/

/-- A hub built with the constructor defaults
(`exploration_rate=0.08, max_brain_share=0.4`, everything else off). -/
def hubDefault : Hub := mkHub (8/100) (4/10) false 0 false 0 2

/-- A hub with consensus enabled (`exploration_rate=0`,
`consensus_bonus=0.1`, `consensus_min_votes=2`). -/
def hubCons : Hub := mkHub 0 (4/10) false 0 true (1/10) 2

/-- A registered brain whose `enabled` flag is off. -/
def disabledBrain : RBrain where
  id := "off"
  enabled := false
  rel := 1
  gen := .ok [[1, 2, 3]]
  scoreGame := fun _ => .ok 1

/-- A brain whose `evaluate_context` returned `0`. -/
def zeroRelBrain : RBrain where
  id := "zero"
  enabled := true
  rel := 0
  gen := .ok [[1, 2, 3]]
  scoreGame := fun _ => .ok 1

/-- An enabled relevant brain whose `generate` yields no games. -/
def emptyGenBrain : RBrain where
  id := "empty"
  enabled := true
  rel := 1
  gen := .ok []
  scoreGame := fun _ => .ok 1

/-- An enabled relevant brain whose `generate` raises. -/
def raisingBrain : RBrain where
  id := "boom"
  enabled := true
  rel := 1
  gen := .error "boom"
  scoreGame := fun _ => .ok 1

/-- An enabled relevant brain whose `generate` succeeds but whose
`score_game` raises on the produced game. -/
def scoreRaisingBrain : RBrain where
  id := "sboom"
  enabled := true
  rel := 1
  gen := .ok [[2, 1, 3]]
  scoreGame := fun _ => .error "score boom"

/-- An enabled relevant brain producing one game with raw score `1`. -/
def goodBrain : RBrain where
  id := "good"
  enabled := true
  rel := 1
  gen := .ok [[3, 1, 2]]
  scoreGame := fun _ => .ok 1

/-- Twin of `goodBrain` under another id proposing the identical game
(consensus-vote material). -/
def twinBrainA : RBrain where
  id := "a"
  enabled := true
  rel := 1
  gen := .ok [[1, 2, 3]]
  scoreGame := fun _ => .ok 1

/-- Second twin brain. -/
def twinBrainB : RBrain where
  id := "b"
  enabled := true
  rel := 1
  gen := .ok [[1, 2, 3]]
  scoreGame := fun _ => .ok 1

/-- The batch `generate_candidates(hubCons, [twinBrainA, twinBrainB])` with
zero noise evaluates to (checked below): both candidates score
`0.675 + 0.1 = 0.775` after the consensus bonus. -/
def outCons : List Cand :=
  [{ jogo := [1, 2, 3], raw := 1, brain := "a", rel := 1, votes := 2, score := 31/40 },
   { jogo := [1, 2, 3], raw := 1, brain := "b", rel := 1, votes := 2, score := 31/40 }]

/-- First candidate of `outCons`. -/
def candCons : Cand :=
  { jogo := [1, 2, 3], raw := 1, brain := "a", rel := 1, votes := 2, score := 31/40 }

/-- The single candidate produced by `goodBrain` under `hubDefault` with zero
noise: `norm = 0.5` (single raw score), `calibrated = 0.5*0.65 + 1*0.35 =
0.675`, `score = 0.675 * (1 - 0.08) = 0.621`. -/
def candGood : Cand where
  jogo := [1, 2, 3]
  raw := 1
  brain := "good"
  rel := 1
  votes := 0
  score := 621/1000

/-- The batch `[candGood]`. -/
def outGood : List Cand := [candGood]

/-- C5's example scenario: brain `"a"` proposes ten mutually disjoint games
with the ten highest scores; brains `"b"`–`"e"` propose two disjoint games
each, covering fresh numbers.  Already sorted by score descending. -/
def scenarioCands : List Cand :=
  [⟨[1, 2], 0, "a", 1, 0, 100⟩, ⟨[3, 4], 0, "a", 1, 0, 99⟩,
   ⟨[5, 6], 0, "a", 1, 0, 98⟩, ⟨[7, 8], 0, "a", 1, 0, 97⟩,
   ⟨[9, 10], 0, "a", 1, 0, 96⟩, ⟨[11, 12], 0, "a", 1, 0, 95⟩,
   ⟨[13, 14], 0, "a", 1, 0, 94⟩, ⟨[15, 16], 0, "a", 1, 0, 93⟩,
   ⟨[17, 18], 0, "a", 1, 0, 92⟩, ⟨[19, 20], 0, "a", 1, 0, 91⟩,
   ⟨[21, 22], 0, "b", 1, 0, 50⟩, ⟨[23, 24], 0, "b", 1, 0, 49⟩,
   ⟨[25, 26], 0, "c", 1, 0, 48⟩, ⟨[27, 28], 0, "c", 1, 0, 47⟩,
   ⟨[29, 30], 0, "d", 1, 0, 46⟩, ⟨[31, 32], 0, "d", 1, 0, 45⟩,
   ⟨[33, 34], 0, "e", 1, 0, 44⟩, ⟨[35, 36], 0, "e", 1, 0, 43⟩]

/-- The batch `diversify` produces on `scenarioCands` with `top_n = 10`,
`max_sim = 0.8`, `max_per_brain = 2`: the two best games of brain `"a"`, then
the eight games of the other four brains. -/
def scenarioPicked : List Cand :=
  [⟨[1, 2], 0, "a", 1, 0, 100⟩, ⟨[3, 4], 0, "a", 1, 0, 99⟩,
   ⟨[21, 22], 0, "b", 1, 0, 50⟩, ⟨[23, 24], 0, "b", 1, 0, 49⟩,
   ⟨[25, 26], 0, "c", 1, 0, 48⟩, ⟨[27, 28], 0, "c", 1, 0, 47⟩,
   ⟨[29, 30], 0, "d", 1, 0, 46⟩, ⟨[31, 32], 0, "d", 1, 0, 45⟩,
   ⟨[33, 34], 0, "e", 1, 0, 44⟩, ⟨[35, 36], 0, "e", 1, 0, 43⟩]

/-- `scenarioPicked` annotated with the acceptance threshold (all accepted in
the first pass at `max_sim = 0.8`). -/
def scenarioAnn : List (Cand × ℚ) := scenarioPicked.map (fun c => (c, 80/100))

/-- A drawn outcome row (seven numbers, as in the `concursos` table). -/
def resSeven : List ℤ := [1, 2, 3, 4, 5, 6, 7]

/-- Item oracle: every processed position evaluates one candidate that meets
the strong-memory threshold. -/
def flagsOne : ℕ → List Bool := fun _ => [true]

/-- Three consecutive stored draws, checkpoint `0`. -/
def dbC7 : TrainDb where
  rows := [(1, resSeven), (2, resSeven), (3, resSeven)]
  ck := 0

/-- The trace of `treinarPendencias dbC7 none flagsOne`. -/
def trC7 : List TrainEvent :=
  [.attempt 1, .memory 1, .learnEv 1, .ckpt 1,
   .attempt 2, .memory 2, .learnEv 2, .ckpt 2, .saveAll]

/-- Stored draws `100, 102, 103` (row `101` has not arrived), checkpoint `0`:
position `100` is pending but its next outcome is unavailable. -/
def dbC8 : TrainDb where
  rows := [(100, resSeven), (102, resSeven), (103, resSeven)]
  ck := 0

/-- The trace of `treinarPendencias dbC8 none flagsOne`: position `100` is
skipped, position `102` is processed and checkpointed. -/
def trC8 : List TrainEvent :=
  [.attempt 102, .memory 102, .learnEv 102, .ckpt 102, .saveAll]

/-! ### Theorems -/

theorem collectBrain_skip (acc : List Cand) (b : RBrain)
    (hb : b.enabled = false ∨ b.rel ≤ 0) : collectBrain acc b = .ok acc := by
  unfold collectBrain
  rcases hb with hb | hb
  · simp [hb]
  · by_cases he : b.enabled
    · simp [he, hb]
    · simp [he]

theorem collectFrom_all_skip (brains : List RBrain) (acc : List Cand)
    (hall : ∀ b ∈ brains, b.enabled = false ∨ b.rel ≤ 0 ∨ b.gen = .ok []) :
    collectFrom acc brains = .ok acc := by
  induction brains generalizing acc with
  | nil => rfl
  | cons b bs ih =>
    have hb := hall b (List.mem_cons_self _ _)
    have hcb : collectBrain acc b = .ok acc := by
      rcases hb with hb | hb | hb
      · exact collectBrain_skip _ _ (Or.inl hb)
      · exact collectBrain_skip _ _ (Or.inr hb)
      · unfold collectBrain
        by_cases he : b.enabled
        · by_cases hr : b.rel ≤ 0
          · simp [he, hr]
          · simp [he, hr, hb, scoreFold]
        · simp [he]
    unfold collectFrom
    rw [hcb]
    exact ih _ (fun b hb => hall b (List.mem_cons_of_mem _ hb))

theorem collectFrom_cons (acc : List Cand) (b : RBrain) (bs : List RBrain) :
    collectFrom acc (b :: bs) =
      match collectBrain acc b with
      | .error e => .error e
      | .ok a => collectFrom a bs := rfl

theorem collectFrom_append (acc : List Cand) (l1 l2 : List RBrain) :
    collectFrom acc (l1 ++ l2) =
      match collectFrom acc l1 with
      | .error e => .error e
      | .ok a => collectFrom a l2 := by
  induction l1 generalizing acc with
  | nil => rfl
  | cons b bs ih =>
    rw [List.cons_append, collectFrom_cons, collectFrom_cons]
    cases hcb : collectBrain acc b with
    | error e => rfl
    | ok a =>
      dsimp only
      exact ih a

theorem collectFrom_skip_mid (post : List RBrain) (b : RBrain)
    (hb : b.enabled = false ∨ b.rel ≤ 0) (pre : List RBrain) (acc : List Cand) :
    collectFrom acc (pre ++ b :: post) = collectFrom acc (pre ++ post) := by
  induction pre generalizing acc with
  | nil =>
    rw [List.nil_append, List.nil_append, collectFrom_cons,
      collectBrain_skip acc b hb]
  | cons a pre ih =>
    rw [List.cons_append, List.cons_append, collectFrom_cons, collectFrom_cons]
    cases hca : collectBrain acc a with
    | error e => rfl
    | ok acc2 =>
      dsimp only
      exact ih acc2

theorem pickPass_nil_cands (topN mpb : ℕ) (thr : ℚ) (acc : List (Cand × ℚ)) :
    pickPass topN mpb thr [] acc = acc := rfl

theorem relaxLoop_nil (topN mpb : ℕ) (fuel : ℕ) :
    ∀ (r : ℚ) (acc : List (Cand × ℚ)), relaxLoop [] topN mpb fuel r acc = acc := by
  induction fuel with
  | zero => intro r acc; rfl
  | succ fuel ih =>
    intro r acc
    unfold relaxLoop
    by_cases hc : acc.length < topN ∧ r < 98/100
    · rw [if_pos hc]
      exact ih _ _
    · rw [if_neg hc]

theorem diversify_nil (topN : ℕ) (maxSim : ℚ) (mpb : ℕ) :
    diversify [] topN maxSim mpb = [] := by
  show ((relaxLoop [] topN mpb (relaxFuel maxSim) maxSim []).take topN).map
    Prod.fst = []
  rw [relaxLoop_nil]
  simp

theorem usos_foldl_metaUpdate (e : MetaEntry) (l : List ℤ) :
    (l.foldl metaUpdate e).usos = e.usos + l.length := by
  induction l generalizing e with
  | nil => simp
  | cons x xs ih =>
    simp only [List.foldl_cons, ih, List.length_cons, metaUpdate]
    omega

/-- C10: the Jaccard similarity used by diversification is total and bounded:
it always lies in `[0, 1]` (no division by zero), and it is `0` exactly when
the union of the two element sets is empty. -/
theorem C10_jaccard_total_bounded (a b : List ℤ) :
    0 ≤ jaccard a b ∧ jaccard a b ≤ 1 ∧
      (a.toFinset ∪ b.toFinset = ∅ → jaccard a b = 0) := by
  unfold jaccard
  by_cases h : (a.toFinset ∪ b.toFinset).card = 0
  · simp [h]
  · have hpos : (0 : ℚ) < ((a.toFinset ∪ b.toFinset).card : ℚ) := by
      exact_mod_cast Nat.pos_of_ne_zero h
    have hle : ((a.toFinset ∩ b.toFinset).card : ℚ) ≤
        ((a.toFinset ∪ b.toFinset).card : ℚ) := by
      exact_mod_cast Finset.card_le_card (Finset.inter_subset_union)
    refine ⟨?_, ?_, ?_⟩
    · simp only [h, if_false]
      positivity
    · simp only [h, if_false]
      exact (div_le_one hpos).mpr hle
    · intro hu
      exact absurd (by simp [hu]) h

/-- C6: the multiplicative calibration weight is `clamp(1 +
(total_points/usage_count/15)*0.15 + ((q14*0.6 + q15*1.2)/usage_count)*0.25,
0.85, 1.25)` on every meta entry reachable through `learn` calls, and it lies
in `[0.85, 1.25]` for every brain id and meta state (including the entry-less
default weight `1.0`). -/
theorem C6_meta_weight_bounded (h : Hub) (brainId other : String)
    (p : ℤ) (ps : List ℤ) :
    (85/100 ≤ metaWeight h brainId ∧ metaWeight h brainId ≤ 125/100) ∧
    ((fun m => metaWeight { h with meta := [(other, m)] } other =
        max (85/100) (min (125/100)
          (1 + ((m.pontos : ℚ) / (m.usos : ℚ) / 15) * (15/100)
             + (((m.q14 : ℚ) * (6/10) + (m.q15 : ℚ) * (12/10)) / (m.usos : ℚ))
               * (25/100))))
      (ps.foldl metaUpdate (metaUpdate ⟨0, 0, 0, 0⟩ p))) := by
  constructor
  · unfold metaWeight
    cases hf : (h.meta.find? (fun q => q.1 == brainId)).map Prod.snd with
    | none => norm_num
    | some m =>
      refine ⟨le_max_left _ _, ?_⟩
      exact max_le (by norm_num) (min_le_left _ _)
  · set m := ps.foldl metaUpdate (metaUpdate ⟨0, 0, 0, 0⟩ p) with hm
    show metaWeight { h with meta := [(other, m)] } other = _
    have husos : m.usos = 1 + ps.length := by
      rw [hm, usos_foldl_metaUpdate]
      simp [metaUpdate]
    have hmax : max 1 m.usos = m.usos := Nat.max_eq_right (by omega)
    have hfind : ((([(other, m)] : List (String × MetaEntry)).find?
        (fun q => q.1 == other)).map Prod.snd) = some m := by
      simp
    unfold metaWeight
    rw [hfind]
    dsimp only
    rw [hmax]

/-- C1 counterexample: a round in which every registered brain produces zero
candidates (one disabled, one with relevance `0`, one generating nothing).
`generate_candidates` returns the empty list `.ok []` — no error is raised —
and `generate_games` likewise returns an empty batch. -/
theorem C1_counterexample :
    generateCandidates hubDefault [disabledBrain, zeroRelBrain, emptyGenBrain]
      (fun _ => 0) = .ok [] ∧
    generateGames hubDefault [disabledBrain, zeroRelBrain, emptyGenBrain]
      (fun _ => 0) 15 60 = .ok [] := by
  have h1 : generateCandidates hubDefault
      [disabledBrain, zeroRelBrain, emptyGenBrain] (fun _ => 0) = .ok [] := rfl
  refine ⟨h1, ?_⟩
  unfold generateGames
  rw [h1]
  dsimp only
  rw [diversify_nil]

/-- C1 (amended): when every registered brain produces zero candidates for a
requested size (each disabled, non-relevant, or generating nothing), the Hub's
generation pipeline returns an empty candidate list to the caller without
raising any error (`if not cand: return []`). -/
theorem C1_empty_round_returns_empty (h : Hub) (brains : List RBrain)
    (ν : ℕ → ℚ)
    (hall : ∀ b ∈ brains, b.enabled = false ∨ b.rel ≤ 0 ∨ b.gen = .ok []) :
    generateCandidates h brains ν = .ok [] ∧
    ∀ size topN, generateGames h brains ν size topN = .ok [] := by
  have hc : collectFrom [] brains = .ok [] := collectFrom_all_skip brains [] hall
  have h1 : generateCandidates h brains ν = .ok [] := by
    unfold generateCandidates
    rw [hc]
    rfl
  refine ⟨h1, fun size topN => ?_⟩
  unfold generateGames
  rw [h1]
  dsimp only
  rw [diversify_nil]

/-- C1 witness: the amended statement applied to the concrete all-empty round. -/
theorem C1_witness :
    generateCandidates hubDefault [disabledBrain, zeroRelBrain, emptyGenBrain]
      (fun _ => 1/17) = .ok [] ∧
    ∀ size topN, generateGames hubDefault
      [disabledBrain, zeroRelBrain, emptyGenBrain] (fun _ => 1/17) size topN
        = .ok [] := by
  refine C1_empty_round_returns_empty hubDefault _ _ ?_
  intro b hb
  simp only [List.mem_cons, List.mem_singleton, List.not_mem_nil, or_false] at hb
  rcases hb with rfl | rfl | rfl
  · exact Or.inl rfl
  · exact Or.inr (Or.inl (by norm_num [zeroRelBrain]))
  · exact Or.inr (Or.inr rfl)

/-- C2 counterexample: a round with one raising brain and one healthy brain.
The exception from the first brain's `generate` propagates out of
`generate_candidates` (there is no `try`/`except` in the Hub), so no batch is
produced from the remaining brain. -/
theorem C2_counterexample :
    generateCandidates hubDefault [raisingBrain, goodBrain] (fun _ => 0)
      = .error "boom" := by rfl

theorem scoreFold_error (b : RBrain) (j : List ℤ) (e : String)
    (hj : b.scoreGame j = .error e) :
    ∀ (js1 : List (List ℤ)) (acc : List Cand) (js2 : List (List ℤ)),
      (∀ j' ∈ js1, ∃ q, b.scoreGame j' = .ok q) →
      scoreFold b acc (js1 ++ j :: js2) = .error e := by
  intro js1
  induction js1 with
  | nil =>
    intro acc js2 _
    rw [List.nil_append]
    unfold scoreFold
    rw [hj]
  | cons j' t ih =>
    intro acc js2 hok
    obtain ⟨q, hq⟩ := hok j' (List.mem_cons_self j' t)
    rw [List.cons_append]
    unfold scoreFold
    rw [hq]
    exact ih _ js2 (fun x hx => hok x (List.mem_cons_of_mem j' hx))

/-- C2 (amended): an exception inside an enabled, relevant brain's `generate`
— or inside its `score_game` while the Hub scores that brain's produced games
— aborts the Hub's candidate-collection call: the error propagates to the
caller and the batch is not produced from the remaining brains.  Only a
disabled brain or one with relevance `≤ 0` contributes zero candidates while
the round continues unaffected. -/
theorem C2_per_brain_exception (h : Hub) (ν : ℕ → ℚ) (pre post : List RBrain)
    (b : RBrain) (acc' : List Cand) (e : String) :
    (b.enabled = true → 0 < b.rel → b.gen = .error e →
      collectFrom [] pre = .ok acc' →
      generateCandidates h (pre ++ b :: post) ν = .error e) ∧
    (∀ jogos1 jf jogos2, b.enabled = true → 0 < b.rel →
      b.gen = .ok (jogos1 ++ jf :: jogos2) →
      (∀ j' ∈ jogos1, ∃ q, b.scoreGame j' = .ok q) →
      b.scoreGame jf = .error e →
      collectFrom [] pre = .ok acc' →
      generateCandidates h (pre ++ b :: post) ν = .error e) ∧
    ((b.enabled = false ∨ b.rel ≤ 0) →
      generateCandidates h (pre ++ b :: post) ν
        = generateCandidates h (pre ++ post) ν) := by
  refine ⟨?_, ?_, ?_⟩
  · intro hen hrel hgen hpre
    have hcb : collectBrain acc' b = .error e := by
      unfold collectBrain
      rw [if_neg (by simp [hen]), if_neg (not_le.mpr hrel), hgen]
    have hcf : collectFrom [] (pre ++ b :: post) = .error e := by
      rw [collectFrom_append, hpre]
      dsimp only
      rw [collectFrom_cons, hcb]
    unfold generateCandidates
    rw [hcf]
  · intro jogos1 jf jogos2 hen hrel hgen hok hscore hpre
    have hcb : collectBrain acc' b = .error e := by
      unfold collectBrain
      rw [if_neg (by simp [hen]), if_neg (not_le.mpr hrel), hgen]
      exact scoreFold_error b jf e hscore jogos1 acc' jogos2 hok
    have hcf : collectFrom [] (pre ++ b :: post) = .error e := by
      rw [collectFrom_append, hpre]
      dsimp only
      rw [collectFrom_cons, hcb]
    unfold generateCandidates
    rw [hcf]
  · intro hb
    unfold generateCandidates
    rw [collectFrom_skip_mid post b hb pre []]

/-- C2 witness: the amended statement applied to concrete rounds — a brain
with a raising `generate` after a healthy one propagates its error, a brain
with a raising `score_game` does too, and a disabled brain is dropped without
affecting the batch. -/
theorem C2_witness :
    generateCandidates hubDefault ([goodBrain] ++ raisingBrain :: [])
      (fun _ => 0) = .error "boom" ∧
    generateCandidates hubDefault ([goodBrain] ++ scoreRaisingBrain :: [])
      (fun _ => 0) = .error "score boom" ∧
    generateCandidates hubDefault ([] ++ disabledBrain :: [goodBrain])
      (fun _ => 0) = generateCandidates hubDefault ([] ++ [goodBrain])
      (fun _ => 0) := by
  refine ⟨?_, ?_, ?_⟩
  · exact (C2_per_brain_exception hubDefault (fun _ => 0) [goodBrain] []
      raisingBrain [{ jogo := [1, 2, 3], raw := 1, brain := "good", rel := 1 }]
      "boom").1 rfl (by norm_num [raisingBrain]) rfl rfl
  · exact (C2_per_brain_exception hubDefault (fun _ => 0) [goodBrain] []
      scoreRaisingBrain [{ jogo := [1, 2, 3], raw := 1, brain := "good", rel := 1 }]
      "score boom").2.1 [] [2, 1, 3] [] rfl (by norm_num [scoreRaisingBrain]) rfl
      (fun j' hj' => absurd hj' (List.not_mem_nil j')) rfl rfl
  · exact (C2_per_brain_exception hubDefault (fun _ => 0) [] [goodBrain]
      disabledBrain [] "unused").2.2 (Or.inl rfl)

theorem foldl_min_le (t : List ℚ) (a : ℚ) :
    t.foldl min a ≤ a ∧ ∀ x ∈ t, t.foldl min a ≤ x := by
  induction t generalizing a with
  | nil => simp
  | cons y t ih =>
    refine ⟨le_trans (ih (min a y)).1 (min_le_left a y), ?_⟩
    intro x hx
    rcases List.mem_cons.mp hx with rfl | hx
    · exact le_trans (ih (min a x)).1 (min_le_right a x)
    · exact (ih (min a y)).2 x hx

theorem le_foldl_max (t : List ℚ) (a : ℚ) :
    a ≤ t.foldl max a ∧ ∀ x ∈ t, x ≤ t.foldl max a := by
  induction t generalizing a with
  | nil => simp
  | cons y t ih =>
    refine ⟨le_trans (le_max_left a y) (ih (max a y)).1, ?_⟩
    intro x hx
    rcases List.mem_cons.mp hx with rfl | hx
    · exact le_trans (le_max_right a x) (ih (max a x)).1
    · exact (ih (max a y)).2 x hx

theorem minQ_le_of_mem {l : List ℚ} {x : ℚ} (hx : x ∈ l) : minQ l ≤ x := by
  cases l with
  | nil => cases hx
  | cons a t =>
    rcases List.mem_cons.mp hx with rfl | hx
    · exact (foldl_min_le t x).1
    · exact (foldl_min_le t a).2 x hx

theorem le_maxQ_of_mem {l : List ℚ} {x : ℚ} (hx : x ∈ l) : x ≤ maxQ l := by
  cases l with
  | nil => cases hx
  | cons a t =>
    rcases List.mem_cons.mp hx with rfl | hx
    · exact (le_foldl_max t x).1
    · exact (le_foldl_max t a).2 x hx

theorem foldl_min_mem (t : List ℚ) (a : ℚ) : t.foldl min a ∈ a :: t := by
  induction t generalizing a with
  | nil => simp
  | cons y t ih =>
    have h := ih (min a y)
    rcases List.mem_cons.mp h with h | h
    · rcases min_choice a y with hm | hm
      · exact List.mem_cons.mpr (Or.inl (h.trans hm))
      · exact List.mem_cons.mpr (Or.inr (List.mem_cons.mpr (Or.inl (h.trans hm))))
    · exact List.mem_cons.mpr (Or.inr (List.mem_cons.mpr (Or.inr h)))

theorem foldl_max_mem (t : List ℚ) (a : ℚ) : t.foldl max a ∈ a :: t := by
  induction t generalizing a with
  | nil => simp
  | cons y t ih =>
    have h := ih (max a y)
    rcases List.mem_cons.mp h with h | h
    · rcases max_choice a y with hm | hm
      · exact List.mem_cons.mpr (Or.inl (h.trans hm))
      · exact List.mem_cons.mpr (Or.inr (List.mem_cons.mpr (Or.inl (h.trans hm))))
    · exact List.mem_cons.mpr (Or.inr (List.mem_cons.mpr (Or.inr h)))

theorem minQ_mem {l : List ℚ} (h : l ≠ []) : minQ l ∈ l := by
  cases l with
  | nil => exact absurd rfl h
  | cons a t => exact foldl_min_mem t a

theorem maxQ_mem {l : List ℚ} (h : l ≠ []) : maxQ l ∈ l := by
  cases l with
  | nil => exact absurd rfl h
  | cons a t => exact foldl_max_mem t a

theorem scoresOf_proj (l₁ l₂ : List Cand)
    (hproj : l₁.map (fun c => (c.brain, c.raw)) = l₂.map (fun c => (c.brain, c.raw)))
    (bid : String) : scoresOf l₁ bid = scoresOf l₂ bid := by
  induction l₁ generalizing l₂ with
  | nil =>
    have : l₂ = [] := by
      cases l₂ with
      | nil => rfl
      | cons c t => exact absurd hproj (by simp)
    rw [this]
  | cons c t ih =>
    cases l₂ with
    | nil => exact absurd hproj (by simp)
    | cons c₂ t₂ =>
      simp only [List.map_cons, List.cons.injEq, Prod.mk.injEq] at hproj
      obtain ⟨⟨hb, hr⟩, ht⟩ := hproj
      simp only [scoresOf, List.filter_cons]
      rw [hb]
      have hrest := ih t₂ ht
      simp only [scoresOf] at hrest
      by_cases hc : (c₂.brain == bid) = true
      · simp only [hc, if_true, List.map_cons, hrest, hr]
      · simp only [hc, Bool.false_eq_true, if_false, hrest]

theorem votesOf_proj (l₁ l₂ : List Cand)
    (hproj : l₁.map (fun c => (c.jogo, c.brain)) = l₂.map (fun c => (c.jogo, c.brain)))
    (c : Cand) : votesOf l₁ c = votesOf l₂ c := by
  suffices hsuff : (l₁.filter (fun d => d.jogo == c.jogo)).map (fun d => d.brain)
      = (l₂.filter (fun d => d.jogo == c.jogo)).map (fun d => d.brain) by
    unfold votesOf
    rw [hsuff]
  induction l₁ generalizing l₂ with
  | nil =>
    cases l₂ with
    | nil => rfl
    | cons c₂ t₂ => exact absurd hproj (by simp)
  | cons d t ih =>
    cases l₂ with
    | nil => exact absurd hproj (by simp)
    | cons d₂ t₂ =>
      simp only [List.map_cons, List.cons.injEq, Prod.mk.injEq] at hproj
      obtain ⟨⟨hj, hb⟩, ht⟩ := hproj
      simp only [List.filter_cons]
      rw [hj]
      have hrest := ih t₂ ht
      by_cases hc : (d₂.jogo == c.jogo) = true
      · simp only [hc, if_true, List.map_cons, hrest, hb]
      · simp only [hc, Bool.false_eq_true, if_false, hrest]

theorem votesOf_jogo_congr (l : List Cand) (c c' : Cand) (h : c.jogo = c'.jogo) :
    votesOf l c = votesOf l c' := by
  unfold votesOf
  rw [h]

theorem finishOne_jogo (h : Hub) (cand : List Cand) (ν : ℕ → ℚ) (q : ℕ × Cand) :
    (finishOne h cand ν q).jogo = q.2.jogo := by
  unfold finishOne
  split <;> rfl

theorem finishOne_raw (h : Hub) (cand : List Cand) (ν : ℕ → ℚ) (q : ℕ × Cand) :
    (finishOne h cand ν q).raw = q.2.raw := by
  unfold finishOne
  split <;> rfl

theorem finishOne_brain (h : Hub) (cand : List Cand) (ν : ℕ → ℚ) (q : ℕ × Cand) :
    (finishOne h cand ν q).brain = q.2.brain := by
  unfold finishOne
  split <;> rfl

theorem finishOne_rel (h : Hub) (cand : List Cand) (ν : ℕ → ℚ) (q : ℕ × Cand) :
    (finishOne h cand ν q).rel = q.2.rel := by
  unfold finishOne
  split <;> rfl

theorem finishOne_score (h : Hub) (cand : List Cand) (ν : ℕ → ℚ) (q : ℕ × Cand) :
    (finishOne h cand ν q).score =
      (normOf cand q.2 * (65/100) + q.2.rel * (35/100)) * metaWeight h q.2.brain
          * (1 - h.explorationRate) + ν q.1
        + (if h.consensusEnabled = true ∧ h.consensusMinVotes ≤ votesOf cand q.2
           then h.consensusBonus else 0) := by
  unfold finishOne
  dsimp only
  by_cases hce : h.consensusEnabled = true
  · rw [if_pos hce]
    by_cases hv : h.consensusMinVotes ≤ votesOf cand q.2
    · simp [hv, hce]
    · simp [hv, hce]
  · simp [hce]

theorem finishCand_proj_brain_raw (h : Hub) (cand : List Cand) (ν : ℕ → ℚ) :
    (finishCand h cand ν).map (fun c => (c.brain, c.raw))
      = cand.map (fun c => (c.brain, c.raw)) := by
  unfold finishCand
  rw [List.map_map]
  have hcg : ∀ q ∈ cand.enum,
      ((fun c : Cand => (c.brain, c.raw)) ∘ finishOne h cand ν) q
        = ((fun c : Cand => (c.brain, c.raw)) ∘ Prod.snd) q := by
    intro q _
    simp only [Function.comp_apply, finishOne_brain, finishOne_raw]
  rw [List.map_congr_left hcg, ← List.map_map, List.enum, List.enumFrom_map_snd]

theorem finishCand_proj_jogo_brain (h : Hub) (cand : List Cand) (ν : ℕ → ℚ) :
    (finishCand h cand ν).map (fun c => (c.jogo, c.brain))
      = cand.map (fun c => (c.jogo, c.brain)) := by
  unfold finishCand
  rw [List.map_map]
  have hcg : ∀ q ∈ cand.enum,
      ((fun c : Cand => (c.jogo, c.brain)) ∘ finishOne h cand ν) q
        = ((fun c : Cand => (c.jogo, c.brain)) ∘ Prod.snd) q := by
    intro q _
    simp only [Function.comp_apply, finishOne_jogo, finishOne_brain]
  rw [List.map_congr_left hcg, ← List.map_map, List.enum, List.enumFrom_map_snd]

theorem finishCand_getElem (h : Hub) (cand : List Cand) (ν : ℕ → ℚ) (i : ℕ)
    (c₀ : Cand) (hc : cand[i]? = some c₀) :
    (finishCand h cand ν)[i]? = some (finishOne h cand ν (i, c₀)) := by
  unfold finishCand
  rw [List.getElem?_map, List.enum, List.getElem?_enumFrom, hc]
  simp

/-- C3 (amended): every candidate of a Hub round scores
`((norm*0.65 + relevance*0.35) * meta_weight) * (1 - exploration_rate) + noise`
for some noise in `[0, exploration_rate]`, **plus the consensus bonus when
consensus is enabled and the candidate's distinct-brain vote count reaches the
configured minimum**; `norm` is the min-max normalisation of the candidate's
raw score over its own brain's batch scores, lies in `[0, 1]`, and equals
exactly `0.5` when that brain's batch has a single distinct raw score. -/
theorem C3_candidate_score_formula (h : Hub) (brains : List RBrain) (ν : ℕ → ℚ)
    (out : List Cand) (i : ℕ) (c : Cand)
    (hν : ∀ j, 0 ≤ ν j ∧ ν j ≤ h.explorationRate)
    (hout : generateCandidates h brains ν = .ok out)
    (hc : out[i]? = some c) :
    (∃ noise, 0 ≤ noise ∧ noise ≤ h.explorationRate ∧
      c.score = (normOf out c * (65/100) + c.rel * (35/100)) * metaWeight h c.brain
          * (1 - h.explorationRate) + noise
        + (if h.consensusEnabled = true ∧ h.consensusMinVotes ≤ votesOf out c
           then h.consensusBonus else 0)) ∧
    (0 ≤ normOf out c ∧ normOf out c ≤ 1) ∧
    ((∀ x ∈ scoresOf out c.brain, ∀ y ∈ scoresOf out c.brain, x = y) →
      normOf out c = 1/2) := by
  unfold generateCandidates at hout
  cases hcf : collectFrom [] brains with
  | error e =>
    rw [hcf] at hout
    exact absurd hout (by simp)
  | ok cand =>
    rw [hcf] at hout
    dsimp only at hout
    by_cases hnil : cand = []
    · rw [if_pos hnil] at hout
      have hout' : out = ([] : List Cand) := by
        injection hout with hh
        exact hh.symm
      rw [hout'] at hc
      exact absurd hc (by simp)
    · rw [if_neg hnil] at hout
      have hout' : out = finishCand h cand ν := by
        injection hout with hh
        exact hh.symm
      subst hout'
      have hi : i < cand.length := by
        have hi' : i < (finishCand h cand ν).length := by
          by_contra hge
          rw [List.getElem?_eq_none (Nat.le_of_not_lt hge)] at hc
          exact absurd hc (by simp)
        simpa [finishCand, List.enum_length] using hi'
      have hc0 : cand[i]? = some cand[i] := List.getElem?_eq_getElem hi
      have hfo := finishCand_getElem h cand ν i cand[i] hc0
      have hceq : c = finishOne h cand ν (i, cand[i]) := by
        rw [hfo] at hc
        exact (Option.some.inj hc).symm
      have hb : c.brain = cand[i].brain := by
        rw [hceq]; exact finishOne_brain h cand ν (i, cand[i])
      have hr : c.raw = cand[i].raw := by
        rw [hceq]; exact finishOne_raw h cand ν (i, cand[i])
      have hrel : c.rel = cand[i].rel := by
        rw [hceq]; exact finishOne_rel h cand ν (i, cand[i])
      have hj : c.jogo = cand[i].jogo := by
        rw [hceq]; exact finishOne_jogo h cand ν (i, cand[i])
      have hsc : scoresOf (finishCand h cand ν) c.brain = scoresOf cand c.brain :=
        scoresOf_proj _ _ (finishCand_proj_brain_raw h cand ν) c.brain
      have hvt : votesOf (finishCand h cand ν) c = votesOf cand cand[i] :=
        (votesOf_proj _ _ (finishCand_proj_jogo_brain h cand ν) c).trans
          (votesOf_jogo_congr cand c cand[i] hj)
      have hnorm : normOf (finishCand h cand ν) c = normOf cand cand[i] := by
        unfold normOf
        rw [hsc, hb, hr]
      have hmemc : cand[i] ∈ cand := List.getElem_mem hi
      have hmem : cand[i].raw ∈ scoresOf cand cand[i].brain := by
        unfold scoresOf
        exact List.mem_map_of_mem _ (List.mem_filter.mpr ⟨hmemc, by simp⟩)
      have hne : scoresOf cand cand[i].brain ≠ [] := by
        intro hemp
        rw [hemp] at hmem
        cases hmem
      refine ⟨⟨ν i, (hν i).1, (hν i).2, ?_⟩, ?_, ?_⟩
      · rw [hnorm, hb, hrel, hvt]
        rw [hceq, finishOne_score]
      · rw [hnorm]
        unfold normOf
        by_cases hlt : minQ (scoresOf cand cand[i].brain)
            < maxQ (scoresOf cand cand[i].brain)
        · rw [if_pos hlt]
          constructor
          · exact div_nonneg (sub_nonneg.mpr (minQ_le_of_mem hmem))
              (le_of_lt (sub_pos.mpr hlt))
          · exact (div_le_one (sub_pos.mpr hlt)).mpr
              (sub_le_sub_right (le_maxQ_of_mem hmem) _)
        · rw [if_neg hlt]
          norm_num
      · intro hall
        rw [hsc, hb] at hall
        have h1 : minQ (scoresOf cand cand[i].brain)
            = maxQ (scoresOf cand cand[i].brain) :=
          hall _ (minQ_mem hne) _ (maxQ_mem hne)
        rw [hnorm]
        unfold normOf
        rw [if_neg (by rw [h1]; exact lt_irrefl _)]

/-- C3 witness: the amended score-formula statement applied to the concrete
round of `goodBrain` under `hubDefault` with zero noise. -/
theorem C3_witness :
    (∃ noise, 0 ≤ noise ∧ noise ≤ hubDefault.explorationRate ∧
      candGood.score = (normOf outGood candGood * (65/100)
            + candGood.rel * (35/100)) * metaWeight hubDefault candGood.brain
          * (1 - hubDefault.explorationRate) + noise
        + (if hubDefault.consensusEnabled = true ∧
             hubDefault.consensusMinVotes ≤ votesOf outGood candGood
           then hubDefault.consensusBonus else 0)) ∧
    (0 ≤ normOf outGood candGood ∧ normOf outGood candGood ≤ 1) ∧
    ((∀ x ∈ scoresOf outGood candGood.brain,
        ∀ y ∈ scoresOf outGood candGood.brain, x = y) →
      normOf outGood candGood = 1/2) := by
  refine C3_candidate_score_formula hubDefault [goodBrain] (fun _ => 0)
    outGood 0 candGood (fun j => ⟨le_refl 0, le_max_left 0 _⟩) ?_ rfl
  norm_num [generateCandidates, collectFrom, collectBrain, scoreFold, sortAsc,
    finishCand, finishOne, normOf, scoresOf, minQ, maxQ, votesOf, metaWeight,
    hubDefault, mkHub, goodBrain, outGood, candGood, List.insertionSort,
    List.orderedInsert, min_def, max_def]

/-- C3 counterexample: with consensus enabled (`bonus = 0.1`,
`min_votes = 2`, `exploration_rate = 0`) and two brains proposing the
identical game, the produced candidate scores `0.675 + 0.1 = 0.775`, which no
noise value in `[0, exploration_rate] = [0, 0]` can reconcile with the
claim's formula `calibrated * (1 - exploration_rate) + noise`. -/
theorem C3_counterexample :
    generateCandidates hubCons [twinBrainA, twinBrainB] (fun _ => 0)
      = .ok outCons ∧
    candCons.score = 31/40 ∧
    ¬ ∃ noise, 0 ≤ noise ∧ noise ≤ hubCons.explorationRate ∧
      candCons.score = (normOf outCons candCons * (65/100)
          + candCons.rel * (35/100)) * metaWeight hubCons candCons.brain
        * (1 - hubCons.explorationRate) + noise := by
  have her : hubCons.explorationRate = 0 := by
    norm_num [hubCons, mkHub, min_def, max_def]
  refine ⟨?_, by norm_num [candCons], ?_⟩
  · norm_num [generateCandidates, collectFrom, collectBrain, scoreFold, sortAsc,
      finishCand, finishOne, normOf, scoresOf, minQ, maxQ, votesOf, metaWeight,
      hubCons, mkHub, twinBrainA, twinBrainB, outCons, candCons,
      List.insertionSort, List.orderedInsert, List.filter_cons, List.enum,
      List.enumFrom, min_def, max_def,
      (by decide : ¬ ("b" : String) = "a"), (by decide : ¬ ("a" : String) = "b"),
      (by decide : (["a", "b"] : List String).dedup = ["a", "b"]),
      (by decide : (["b"] : List String).dedup = ["b"])]
    intro hcontra
    exact absurd hcontra (by simp)
  · rintro ⟨noise, h0, h1, heq⟩
    rw [her] at h1
    have hnz : noise = 0 := le_antisymm h1 h0
    have hval : normOf outCons candCons = 1/2 := by
      norm_num [normOf, scoresOf, minQ, maxQ, outCons, candCons,
        List.filter_cons, (by decide : ¬ ("b" : String) = "a")]
    have hmw : metaWeight hubCons candCons.brain = 1 := by
      norm_num [metaWeight, hubCons, mkHub, candCons]
    rw [hnz, her, hval, hmw] at heq
    norm_num [candCons] at heq

theorem jaccard_inter_empty (a b : List ℤ)
    (h : (a.toFinset ∩ b.toFinset).card = 0) : jaccard a b = 0 := by
  unfold jaccard
  dsimp only
  rw [h]
  by_cases hu : (a.toFinset ∪ b.toFinset).card = 0
  · simp [hu]
  · simp [hu]

theorem decide_jaccard_lt (a b : List ℤ) (thr : ℚ) (hpos : 0 < thr)
    (h : (a.toFinset ∩ b.toFinset).card = 0) :
    decide (jaccard a b < thr) = true := by
  rw [decide_eq_true_eq, jaccard_inter_empty a b h]
  exact hpos

theorem pickPass_cons (topN mpb : ℕ) (thr : ℚ) (c : Cand) (cs : List Cand)
    (acc : List (Cand × ℚ)) :
    pickPass topN mpb thr (c :: cs) acc =
      if topN ≤ acc.length then acc
      else if mpb ≤ countBrain (acc.map Prod.fst) c.brain then
        pickPass topN mpb thr cs acc
      else if (acc.map Prod.fst).all
          (fun e => decide (jaccard c.jogo e.jogo < thr)) then
        pickPass topN mpb thr cs (acc ++ [(c, thr)])
      else pickPass topN mpb thr cs acc := rfl

theorem pickPass_extends (topN mpb : ℕ) (thr : ℚ) (cands : List Cand) :
    ∀ acc, ∃ t, pickPass topN mpb thr cands acc = acc ++ t := by
  induction cands with
  | nil => exact fun acc => ⟨[], by simp [pickPass]⟩
  | cons c cs ih =>
    intro acc
    rw [pickPass_cons]
    by_cases h1 : topN ≤ acc.length
    · exact ⟨[], by simp [h1]⟩
    · rw [if_neg h1]
      by_cases h2 : mpb ≤ countBrain (acc.map Prod.fst) c.brain
      · rw [if_pos h2]; exact ih acc
      · rw [if_neg h2]
        by_cases h3 : (acc.map Prod.fst).all
            (fun e => decide (jaccard c.jogo e.jogo < thr)) = true
        · rw [if_pos h3]
          obtain ⟨t, ht⟩ := ih (acc ++ [(c, thr)])
          exact ⟨(c, thr) :: t, by rw [ht]; simp⟩
        · rw [if_neg h3]; exact ih acc

theorem relaxLoop_extends (cands : List Cand) (topN mpb : ℕ) (fuel : ℕ) :
    ∀ (r : ℚ) (acc : List (Cand × ℚ)),
      ∃ t, relaxLoop cands topN mpb fuel r acc = acc ++ t := by
  induction fuel with
  | zero => exact fun r acc => ⟨[], by simp [relaxLoop]⟩
  | succ fuel ih =>
    intro r acc
    unfold relaxLoop
    by_cases hc : acc.length < topN ∧ r < 98/100
    · rw [if_pos hc]
      obtain ⟨t1, ht1⟩ := pickPass_extends topN mpb (min (98/100) (r + 3/100))
        cands acc
      obtain ⟨t2, ht2⟩ := ih (min (98/100) (r + 3/100))
        (pickPass topN mpb (min (98/100) (r + 3/100)) cands acc)
      exact ⟨t1 ++ t2, by rw [ht2, ht1, List.append_assoc]⟩
    · rw [if_neg hc]; exact ⟨[], by simp⟩

theorem pickPass_length (topN mpb : ℕ) (thr : ℚ) (cands : List Cand) :
    ∀ acc, acc.length ≤ topN → (pickPass topN mpb thr cands acc).length ≤ topN := by
  induction cands with
  | nil => exact fun acc h => h
  | cons c cs ih =>
    intro acc h
    rw [pickPass_cons]
    by_cases h1 : topN ≤ acc.length
    · rw [if_pos h1]; exact h
    · rw [if_neg h1]
      by_cases h2 : mpb ≤ countBrain (acc.map Prod.fst) c.brain
      · rw [if_pos h2]; exact ih acc h
      · rw [if_neg h2]
        by_cases h3 : (acc.map Prod.fst).all
            (fun e => decide (jaccard c.jogo e.jogo < thr)) = true
        · rw [if_pos h3]
          exact ih _ (by simp [Nat.succ_le_of_lt (Nat.lt_of_not_le h1)])
        · rw [if_neg h3]; exact ih acc h

theorem pickPass_count (topN mpb : ℕ) (thr : ℚ) (cands : List Cand) (bid : String) :
    ∀ acc, countBrain (acc.map Prod.fst) bid ≤ mpb →
      countBrain ((pickPass topN mpb thr cands acc).map Prod.fst) bid ≤ mpb := by
  induction cands with
  | nil => exact fun acc h => h
  | cons c cs ih =>
    intro acc h
    rw [pickPass_cons]
    by_cases h1 : topN ≤ acc.length
    · rw [if_pos h1]; exact h
    · rw [if_neg h1]
      by_cases h2 : mpb ≤ countBrain (acc.map Prod.fst) c.brain
      · rw [if_pos h2]; exact ih acc h
      · rw [if_neg h2]
        by_cases h3 : (acc.map Prod.fst).all
            (fun e => decide (jaccard c.jogo e.jogo < thr)) = true
        · rw [if_pos h3]
          refine ih _ ?_
          unfold countBrain at h2 h ⊢
          rw [List.map_append, List.countP_append]
          simp only [List.map_cons, List.map_nil, List.countP_cons,
            List.countP_nil]
          by_cases hb : (c.brain == bid) = true
          · have hceq : c.brain = bid := by simpa using hb
            subst hceq
            have hlt := Nat.lt_of_not_le h2
            simp only [beq_self_eq_true, if_true]
            omega
          · rw [if_neg hb]
            omega
        · rw [if_neg h3]; exact ih acc h

theorem pickPass_pairwise (topN mpb : ℕ) (thr : ℚ) (cands : List Cand) :
    ∀ acc, acc.Pairwise (fun x y : Cand × ℚ => jaccard y.1.jogo x.1.jogo < y.2) →
      (pickPass topN mpb thr cands acc).Pairwise
        (fun x y : Cand × ℚ => jaccard y.1.jogo x.1.jogo < y.2) := by
  induction cands with
  | nil => exact fun acc h => h
  | cons c cs ih =>
    intro acc h
    rw [pickPass_cons]
    by_cases h1 : topN ≤ acc.length
    · rw [if_pos h1]; exact h
    · rw [if_neg h1]
      by_cases h2 : mpb ≤ countBrain (acc.map Prod.fst) c.brain
      · rw [if_pos h2]; exact ih acc h
      · rw [if_neg h2]
        by_cases h3 : (acc.map Prod.fst).all
            (fun e => decide (jaccard c.jogo e.jogo < thr)) = true
        · rw [if_pos h3]
          refine ih _ (List.pairwise_append.mpr ⟨h, List.pairwise_singleton _ _, ?_⟩)
          intro x hx y hy
          rw [List.mem_singleton] at hy
          subst hy
          have := List.all_eq_true.mp h3 x.1 (List.mem_map_of_mem Prod.fst hx)
          exact of_decide_eq_true this
        · rw [if_neg h3]; exact ih acc h

theorem pickPass_thr (topN mpb : ℕ) (thr maxSim : ℚ) (cands : List Cand)
    (hthr : thr = maxSim ∨ ∃ k : ℕ, 1 ≤ k ∧ thr = min (98/100) (maxSim + k * (3/100))) :
    ∀ acc, (∀ e ∈ acc, e.2 = maxSim ∨
        ∃ k : ℕ, 1 ≤ k ∧ e.2 = min (98/100) (maxSim + k * (3/100))) →
      ∀ e ∈ pickPass topN mpb thr cands acc, e.2 = maxSim ∨
        ∃ k : ℕ, 1 ≤ k ∧ e.2 = min (98/100) (maxSim + k * (3/100)) := by
  induction cands with
  | nil => exact fun acc h => h
  | cons c cs ih =>
    intro acc h
    rw [pickPass_cons]
    by_cases h1 : topN ≤ acc.length
    · rw [if_pos h1]; exact h
    · rw [if_neg h1]
      by_cases h2 : mpb ≤ countBrain (acc.map Prod.fst) c.brain
      · rw [if_pos h2]; exact ih acc h
      · rw [if_neg h2]
        by_cases h3 : (acc.map Prod.fst).all
            (fun e => decide (jaccard c.jogo e.jogo < thr)) = true
        · rw [if_pos h3]
          refine ih _ ?_
          intro e he
          rcases List.mem_append.mp he with he | he
          · exact h e he
          · rw [List.mem_singleton] at he
            subst he
            exact hthr
        · rw [if_neg h3]; exact ih acc h

theorem relax_step_form (maxSim r : ℚ)
    (hr : r = maxSim ∨ ∃ k : ℕ, 1 ≤ k ∧ r = min (98/100) (maxSim + k * (3/100)))
    (hlt : r < 98/100) :
    min (98/100) (r + 3/100) = maxSim ∨
      ∃ k : ℕ, 1 ≤ k ∧ min (98/100) (r + 3/100)
        = min (98/100) (maxSim + k * (3/100)) := by
  rcases hr with hr | ⟨k, hk, hr⟩
  · refine Or.inr ⟨1, le_refl 1, ?_⟩
    rw [hr]
    norm_num
  · refine Or.inr ⟨k + 1, by omega, ?_⟩
    have hx : maxSim + k * (3/100) ≤ 98/100 ∨ ¬ maxSim + k * (3/100) ≤ 98/100 :=
      em _
    rcases hx with hx | hx
    · have hrx : r = maxSim + k * (3/100) := by rw [hr, min_eq_right hx]
      rw [hrx]
      push_cast
      ring_nf
    · have : r = 98/100 := by
        rw [hr, min_eq_left (le_of_not_le hx)]
      rw [this] at hlt
      exact absurd hlt (lt_irrefl _)

theorem relaxLoop_props (cands : List Cand) (topN mpb : ℕ) (maxSim : ℚ)
    (fuel : ℕ) :
    ∀ (r : ℚ) (acc : List (Cand × ℚ)),
      (r = maxSim ∨ ∃ k : ℕ, 1 ≤ k ∧ r = min (98/100) (maxSim + k * (3/100))) →
      acc.length ≤ topN →
      (∀ bid, countBrain (acc.map Prod.fst) bid ≤ mpb) →
      acc.Pairwise (fun x y : Cand × ℚ => jaccard y.1.jogo x.1.jogo < y.2) →
      (∀ e ∈ acc, e.2 = maxSim ∨
        ∃ k : ℕ, 1 ≤ k ∧ e.2 = min (98/100) (maxSim + k * (3/100))) →
      (relaxLoop cands topN mpb fuel r acc).length ≤ topN ∧
      (∀ bid, countBrain ((relaxLoop cands topN mpb fuel r acc).map Prod.fst) bid
        ≤ mpb) ∧
      (relaxLoop cands topN mpb fuel r acc).Pairwise
        (fun x y : Cand × ℚ => jaccard y.1.jogo x.1.jogo < y.2) ∧
      (∀ e ∈ relaxLoop cands topN mpb fuel r acc, e.2 = maxSim ∨
        ∃ k : ℕ, 1 ≤ k ∧ e.2 = min (98/100) (maxSim + k * (3/100))) := by
  induction fuel with
  | zero => exact fun r acc _ h1 h2 h3 h4 => ⟨h1, h2, h3, h4⟩
  | succ fuel ih =>
    intro r acc hr h1 h2 h3 h4
    unfold relaxLoop
    by_cases hc : acc.length < topN ∧ r < 98/100
    · rw [if_pos hc]
      have hr' := relax_step_form maxSim r hr hc.2
      exact ih _ _ hr'
        (pickPass_length topN mpb _ cands acc h1)
        (fun bid => pickPass_count topN mpb _ cands bid acc (h2 bid))
        (pickPass_pairwise topN mpb _ cands acc h3)
        (pickPass_thr topN mpb _ maxSim cands hr' acc h4)
    · rw [if_neg hc]; exact ⟨h1, h2, h3, h4⟩

/-- C4: every diversified batch has at most `top_n` candidates; each pair of
accepted candidates has Jaccard similarity strictly below the threshold in
force when the later one was accepted (the annotated run `diversifyAnn`
records that threshold, and projects to `diversify` itself); every effective
threshold is either the configured cap `max_sim` or a `+0.03`-relaxation
`min(0.98, max_sim + k*0.03)`; and no pass ever removes already-accepted
candidates (each pass only appends to the accumulator). -/
theorem C4_diversified_batch (cands : List Cand) (topN : ℕ) (maxSim : ℚ)
    (mpb : ℕ) :
    (diversify cands topN maxSim mpb).length ≤ topN ∧
    (diversifyAnn cands topN maxSim mpb).map Prod.fst
      = diversify cands topN maxSim mpb ∧
    (diversifyAnn cands topN maxSim mpb).Pairwise
      (fun x y : Cand × ℚ => jaccard y.1.jogo x.1.jogo < y.2) ∧
    (∀ e ∈ diversifyAnn cands topN maxSim mpb, e.2 = maxSim ∨
      ∃ k : ℕ, 1 ≤ k ∧ e.2 = min (98/100) (maxSim + k * (3/100))) ∧
    (∀ (thr : ℚ) (acc : List (Cand × ℚ)),
      ∃ t, pickPass topN mpb thr cands acc = acc ++ t) ∧
    (∀ (fuel : ℕ) (r : ℚ) (acc : List (Cand × ℚ)),
      ∃ t, relaxLoop cands topN mpb fuel r acc = acc ++ t) := by
  set sorted := cands.insertionSort (fun a b => b.score ≤ a.score) with hsorted
  set first := pickPass topN mpb maxSim sorted [] with hfirst
  have hfirst_len : first.length ≤ topN :=
    pickPass_length topN mpb maxSim sorted [] (Nat.zero_le _)
  have hfirst_cnt : ∀ bid, countBrain (first.map Prod.fst) bid ≤ mpb :=
    fun bid => pickPass_count topN mpb maxSim sorted bid [] (Nat.zero_le _)
  have hfirst_pw : first.Pairwise
      (fun x y : Cand × ℚ => jaccard y.1.jogo x.1.jogo < y.2) :=
    pickPass_pairwise topN mpb maxSim sorted [] List.Pairwise.nil
  have hfirst_thr : ∀ e ∈ first, e.2 = maxSim ∨
      ∃ k : ℕ, 1 ≤ k ∧ e.2 = min (98/100) (maxSim + k * (3/100)) :=
    pickPass_thr topN mpb maxSim maxSim sorted (Or.inl rfl) []
      (by intro e he; cases he)
  have hloop := relaxLoop_props sorted topN mpb maxSim (relaxFuel maxSim)
    maxSim first (Or.inl rfl) hfirst_len hfirst_cnt hfirst_pw hfirst_thr
  have hannEq : diversifyAnn cands topN maxSim mpb
      = (relaxLoop sorted topN mpb (relaxFuel maxSim) maxSim first).take topN :=
    rfl
  refine ⟨?_, rfl, ?_, ?_,
    fun thr acc => pickPass_extends topN mpb thr cands acc,
    fun fuel r acc => relaxLoop_extends cands topN mpb fuel r acc⟩
  · rw [diversify, hannEq]
    simp [List.length_take_le]
  · rw [hannEq]
    exact hloop.2.2.1.sublist (List.take_sublist topN _)
  · rw [hannEq]
    intro e he
    exact hloop.2.2.2 e (List.take_subset topN _ he)

/-- C5: in every diversified batch no brain exceeds `max_per_brain`
candidates (across all relaxation passes, since the per-brain counters
persist), and in the concrete example scenario — `max_per_brain = 2`, brain
`"a"` proposing ten mutually disjoint top-scoring candidates, `top_n = 10`,
four other brains filling the rest — brain `"a"` contributes exactly `2`
candidates to the full batch of `10`. -/
theorem pickPass_eq_pickQuota (topN mpb : ℕ) (thr : ℚ) (hpos : 0 < thr) :
    ∀ (cands : List Cand) (acc : List (Cand × ℚ)),
      cands.Pairwise
        (fun c d => (d.jogo.toFinset ∩ c.jogo.toFinset).card = 0) →
      (∀ e ∈ acc, ∀ c ∈ cands, (c.jogo.toFinset ∩ e.1.jogo.toFinset).card = 0) →
      pickPass topN mpb thr cands acc = pickQuota topN mpb thr cands acc := by
  intro cands
  induction cands with
  | nil => intro acc _ _; rfl
  | cons c cs ih =>
    intro acc hpair hacc
    obtain ⟨hhead, htail⟩ := List.pairwise_cons.mp hpair
    rw [pickPass_cons]
    show _ = pickQuota topN mpb thr (c :: cs) acc
    unfold pickQuota
    by_cases h1 : topN ≤ acc.length
    · rw [if_pos h1, if_pos h1]
    · rw [if_neg h1, if_neg h1]
      by_cases h2 : mpb ≤ countBrain (acc.map Prod.fst) c.brain
      · rw [if_pos h2, if_pos h2]
        exact ih acc htail
          (fun e he c' hc' => hacc e he c' (List.mem_cons_of_mem c hc'))
      · rw [if_neg h2, if_neg h2]
        have hall : (acc.map Prod.fst).all
            (fun e => decide (jaccard c.jogo e.jogo < thr)) = true := by
          rw [List.all_eq_true]
          intro e he
          obtain ⟨e', he', rfl⟩ := List.mem_map.mp he
          rw [decide_eq_true_eq,
            jaccard_inter_empty _ _ (hacc e' he' c (List.mem_cons_self c cs))]
          exact hpos
        rw [if_pos hall]
        refine ih _ htail ?_
        intro e he c' hc'
        rcases List.mem_append.mp he with he | he
        · exact hacc e he c' (List.mem_cons_of_mem c hc')
        · rw [List.mem_singleton] at he
          subst he
          exact hhead c' hc'

theorem C5_per_brain_quota (cands : List Cand) (topN : ℕ) (maxSim : ℚ)
    (mpb : ℕ) (bid : String) :
    countBrain (diversify cands topN maxSim mpb) bid ≤ mpb ∧
    (countBrain (diversify scenarioCands 10 (80/100) 2) "a" = 2 ∧
     (diversify scenarioCands 10 (80/100) 2).length = 10) := by
  constructor
  · set sorted := cands.insertionSort (fun a b => b.score ≤ a.score) with hs
    set first := pickPass topN mpb maxSim sorted [] with hf
    have hloop := relaxLoop_props sorted topN mpb maxSim (relaxFuel maxSim)
      maxSim first (Or.inl rfl)
      (pickPass_length topN mpb maxSim sorted [] (Nat.zero_le _))
      (fun b => pickPass_count topN mpb maxSim sorted b [] (Nat.zero_le _))
      (pickPass_pairwise topN mpb maxSim sorted [] List.Pairwise.nil)
      (pickPass_thr topN mpb maxSim maxSim sorted (Or.inl rfl) []
        (by intro e he; cases he))
    have hsub : List.Sublist
        (((relaxLoop sorted topN mpb (relaxFuel maxSim) maxSim
          first).take topN).map Prod.fst)
        ((relaxLoop sorted topN mpb (relaxFuel maxSim) maxSim first).map
          Prod.fst) :=
      (List.take_sublist topN _).map Prod.fst
    exact le_trans (List.Sublist.countP_le _ hsub) (hloop.2.1 bid)
  · have hsort : scenarioCands.insertionSort (fun a b => b.score ≤ a.score)
        = scenarioCands := by decide
    have hpick : pickPass 10 2 (80/100) scenarioCands [] = scenarioAnn := by
      rw [pickPass_eq_pickQuota 10 2 (80/100) (by norm_num) scenarioCands []
        (by decide) (by intro e he; cases he)]
      rfl
    have hfuel : relaxFuel (80/100) = 7 := by
      have h6 : ⌈((98 : ℚ)/100 - 80/100) * (100/3)⌉ = 6 := by norm_num
      unfold relaxFuel
      rw [h6]
      rfl
    have hlen : scenarioAnn.length = 10 := rfl
    have hloop2 : relaxLoop scenarioCands 10 2 7 (80/100) scenarioAnn
        = scenarioAnn := by
      unfold relaxLoop
      rw [if_neg]
      intro hcontra
      rw [hlen] at hcontra
      exact absurd hcontra.1 (lt_irrefl 10)
    have hdiv : diversify scenarioCands 10 (80/100) 2 = scenarioPicked := by
      unfold diversify diversifyAnn
      dsimp only
      rw [hsort, hpick, hfuel, hloop2]
      rfl
    rw [hdiv]
    exact ⟨by decide, rfl⟩

theorem stepBody_shape (p : ℕ) (l : List Bool) :
    ∀ e ∈ stepBody p l, e = TrainEvent.attempt p ∨ e = TrainEvent.memory p ∨
      e = TrainEvent.learnEv p := by
  induction l with
  | nil => intro e he; cases he
  | cons f fs ih =>
    intro e he
    simp only [stepBody, List.map_cons, List.flatten_cons] at he
    rcases List.mem_append.mp he with he | he
    · by_cases hf : f = true
      · subst hf
        simp at he
        tauto
      · rw [Bool.not_eq_true] at hf
        subst hf
        simp at he
        tauto
    · exact ih e he

theorem stepBody_no_ckpt (p q : ℕ) (l : List Bool) :
    TrainEvent.ckpt q ∉ stepBody p l := by
  intro hin
  rcases stepBody_shape p l _ hin with h | h | h <;> cases h

theorem stepEvents_decomp (idx p : ℕ) (l : List Bool) :
    stepEvents idx p l = stepBody p l ++ TrainEvent.ckpt p ::
      (if idx % 5 = 0 then [TrainEvent.saveAll] else []) := by
  unfold stepEvents
  rw [List.append_assoc]
  rfl

theorem stepEvents_posOf (idx p : ℕ) (l : List Bool) :
    ∀ e ∈ stepEvents idx p l, e.posOf = some p ∨ e = TrainEvent.saveAll := by
  intro e he
  rw [stepEvents_decomp] at he
  rcases List.mem_append.mp he with he | he
  · rcases stepBody_shape p l e he with rfl | rfl | rfl <;> exact Or.inl rfl
  · rcases List.mem_cons.mp he with rfl | he
    · exact Or.inl rfl
    · by_cases hi : idx % 5 = 0
      · rw [if_pos hi, List.mem_singleton] at he
        exact Or.inr he
      · rw [if_neg hi] at he
        cases he

theorem stepOf_posOf (db : TrainDb) (flags : ℕ → List Bool) (q : ℕ × ℕ) :
    ∀ e ∈ stepOf db flags q,
      (e.posOf = some q.2 ∧ (fetchResult db (q.2 + 1)).isSome = true) ∨
        e = TrainEvent.saveAll := by
  intro e he
  unfold stepOf at he
  cases hres : fetchResult db (q.2 + 1) with
  | none => rw [hres] at he; cases he
  | some r =>
    rw [hres] at he
    rcases stepEvents_posOf q.1 q.2 (flags q.2) e he with h | h
    · exact Or.inl ⟨h, rfl⟩
    · exact Or.inr h

theorem flatten_posOf (db : TrainDb) (flags : ℕ → List Bool) :
    ∀ (l : List (ℕ × ℕ)), ∀ e ∈ (l.map (stepOf db flags)).flatten,
      (∃ q ∈ l, e.posOf = some q.2 ∧ (fetchResult db (q.2 + 1)).isSome = true) ∨
        e = TrainEvent.saveAll := by
  intro l
  induction l with
  | nil => intro e he; cases he
  | cons q rest ih =>
    intro e he
    simp only [List.map_cons, List.flatten_cons] at he
    rcases List.mem_append.mp he with he | he
    · rcases stepOf_posOf db flags q e he with ⟨h1, h2⟩ | h
      · exact Or.inl ⟨q, List.mem_cons_self _ _, h1, h2⟩
      · exact Or.inr h
    · rcases ih e he with ⟨q', hq', h1, h2⟩ | h
      · exact Or.inl ⟨q', List.mem_cons_of_mem _ hq', h1, h2⟩
      · exact Or.inr h

theorem ckptWrites_append (l1 l2 : List TrainEvent) :
    ckptWrites (l1 ++ l2) = ckptWrites l1 ++ ckptWrites l2 :=
  List.filterMap_append l1 l2 _

theorem ckptWrites_stepBody (p : ℕ) (l : List Bool) :
    ckptWrites (stepBody p l) = [] := by
  show List.filterMap _ (stepBody p l) = []
  rw [List.filterMap_eq_nil_iff]
  intro e he
  rcases stepBody_shape p l e he with rfl | rfl | rfl <;> rfl

theorem ckptWrites_stepOf (db : TrainDb) (flags : ℕ → List Bool) (q : ℕ × ℕ) :
    ckptWrites (stepOf db flags q) =
      if (fetchResult db (q.2 + 1)).isSome = true then [q.2] else [] := by
  unfold stepOf
  cases hres : fetchResult db (q.2 + 1) with
  | none => rfl
  | some r =>
    rw [stepEvents_decomp]
    show ckptWrites (_ ++ _ :: _) = _
    rw [ckptWrites_append, ckptWrites_stepBody]
    by_cases hi : q.1 % 5 = 0
    · rw [if_pos hi]; rfl
    · rw [if_neg hi]; rfl

theorem ckptWrites_flatten (db : TrainDb) (flags : ℕ → List Bool) :
    ∀ l : List (ℕ × ℕ), ckptWrites ((l.map (stepOf db flags)).flatten) =
      (l.map Prod.snd).filter (fun p => (fetchResult db (p + 1)).isSome) := by
  intro l
  induction l with
  | nil => rfl
  | cons q rest ih =>
    simp only [List.map_cons, List.flatten_cons, List.filter_cons]
    rw [ckptWrites_append, ih, ckptWrites_stepOf]
    by_cases hq : (fetchResult db (q.2 + 1)).isSome = true
    · rw [if_pos hq, if_pos hq]; rfl
    · rw [if_neg hq, if_neg hq]; rfl

theorem treinar_trace (db : TrainDb) (limite : Option ℕ)
    (flags : ℕ → List Bool) (tr : List TrainEvent)
    (htr : treinarPendencias db limite flags = .ok tr) :
    tr = (((pendentesOf db limite).enumFrom 1).map (stepOf db flags)).flatten
      ++ [TrainEvent.saveAll] := by
  unfold treinarPendencias at htr
  by_cases hlen : (fetchAllConcursos db).length < 2
  · rw [if_pos hlen] at htr; cases htr
  · rw [if_neg hlen] at htr
    injection htr with h
    exact h.symm

theorem ckptWrites_treinar (db : TrainDb) (limite : Option ℕ)
    (flags : ℕ → List Bool) (tr : List TrainEvent)
    (htr : treinarPendencias db limite flags = .ok tr) :
    ckptWrites tr = (pendentesOf db limite).filter
      (fun p => (fetchResult db (p + 1)).isSome) := by
  rw [treinar_trace db limite flags tr htr, ckptWrites_append,
    ckptWrites_flatten, List.enumFrom_map_snd,
    show ckptWrites [TrainEvent.saveAll] = [] from rfl, List.append_nil]

theorem pendentes_sublist (db : TrainDb) (limite : Option ℕ) :
    List.Sublist (pendentesOf db limite) (fetchAllConcursos db) := by
  unfold pendentesOf
  cases limite with
  | none => exact List.filter_sublist _
  | some l => exact (List.take_sublist _ _).trans (List.filter_sublist _)

theorem pendentes_gt_ck (db : TrainDb) (limite : Option ℕ) (p : ℕ)
    (hp : p ∈ pendentesOf db limite) : db.ck < p := by
  unfold pendentesOf at hp
  have hp' : p ∈ (fetchAllConcursos db).filter
      (fun c => decide (db.ck < c ∧ c ≤ maxTreino db)) := by
    cases limite with
    | none => exact hp
    | some l => exact List.take_subset _ _ hp
  have hdec := List.of_mem_filter hp'
  exact (of_decide_eq_true hdec).1

theorem ckpt_decomp (db : TrainDb) (flags : ℕ → List Bool) (p : ℕ) :
    ∀ l : List (ℕ × ℕ), (l.map Prod.snd).Pairwise (· < ·) →
      TrainEvent.ckpt p ∈ (l.map (stepOf db flags)).flatten →
      ∃ pre post, (l.map (stepOf db flags)).flatten
          = pre ++ TrainEvent.ckpt p :: post ∧
        ∀ e ∈ post, e.posOf ≠ some p := by
  intro l
  induction l with
  | nil => intro _ hin; cases hin
  | cons q rest ih =>
    intro hpw hin
    simp only [List.map_cons, List.pairwise_cons] at hpw
    obtain ⟨hhead, htailpw⟩ := hpw
    simp only [List.map_cons, List.flatten_cons] at hin ⊢
    rcases List.mem_append.mp hin with hin | hin
    · have hpq : p = q.2 := by
        rcases stepOf_posOf db flags q _ hin with ⟨h1, _⟩ | h
        · exact Option.some.inj h1
        · cases h
      subst hpq
      have hproc : ∃ r, fetchResult db (q.2 + 1) = some r := by
        cases hres : fetchResult db (q.2 + 1) with
        | none =>
          unfold stepOf at hin
          rw [hres] at hin
          cases hin
        | some r => exact ⟨r, rfl⟩
      obtain ⟨r, hres⟩ := hproc
      have hstep : stepOf db flags q = stepBody q.2 (flags q.2)
          ++ TrainEvent.ckpt q.2 ::
            (if q.1 % 5 = 0 then [TrainEvent.saveAll] else []) := by
        unfold stepOf
        rw [hres, stepEvents_decomp]
      refine ⟨stepBody q.2 (flags q.2),
        (if q.1 % 5 = 0 then [TrainEvent.saveAll] else [])
          ++ (rest.map (stepOf db flags)).flatten, ?_, ?_⟩
      · rw [hstep, List.append_assoc]
        rfl
      · intro e he
        rcases List.mem_append.mp he with he | he
        · have : e = TrainEvent.saveAll := by
            by_cases hi : q.1 % 5 = 0
            · rw [if_pos hi, List.mem_singleton] at he; exact he
            · rw [if_neg hi] at he; cases he
          subst this
          simp [TrainEvent.posOf]
        · rcases flatten_posOf db flags rest e he with ⟨q', hq', h1, _⟩ | h
          · rw [h1]
            intro hcontra
            have : q'.2 = q.2 := Option.some.inj hcontra
            have hlt := hhead q'.2 (List.mem_map_of_mem Prod.snd hq')
            omega
          · subst h
            simp [TrainEvent.posOf]
    · obtain ⟨pre', post', heq, hpost⟩ := ih htailpw hin
      refine ⟨stepOf db flags q ++ pre', post', ?_, hpost⟩
      rw [heq, List.append_assoc]

/-- C7: during one `treinar_pendencias` run, checkpoint writes are strictly
increasing, every written value exceeds the checkpoint read at startup, and
each position's checkpoint write happens only after all its attempt
persistence, strong-memory persistence and learning dispatch (no event of
that position occurs after its checkpoint write). -/
theorem C7_checkpoint_monotone (db : TrainDb) (limite : Option ℕ)
    (flags : ℕ → List Bool) (tr : List TrainEvent)
    (hsorted : (fetchAllConcursos db).Chain' (· < ·))
    (htr : treinarPendencias db limite flags = .ok tr) :
    (ckptWrites tr).Chain' (· < ·) ∧
    (∀ p ∈ ckptWrites tr, db.ck < p) ∧
    (∀ p, TrainEvent.ckpt p ∈ tr →
      ∃ pre post, tr = pre ++ TrainEvent.ckpt p :: post ∧
        ∀ e ∈ post, e.posOf ≠ some p) := by
  have hwr := ckptWrites_treinar db limite flags tr htr
  have hpend : (pendentesOf db limite).Chain' (· < ·) :=
    hsorted.sublist (pendentes_sublist db limite)
  refine ⟨?_, ?_, ?_⟩
  · rw [hwr]
    exact hpend.sublist (List.filter_sublist _)
  · intro p hp
    rw [hwr] at hp
    exact pendentes_gt_ck db limite p (List.mem_of_mem_filter hp)
  · intro p hin
    have htr' := treinar_trace db limite flags tr htr
    rw [htr'] at hin
    have hin' : TrainEvent.ckpt p ∈
        (((pendentesOf db limite).enumFrom 1).map (stepOf db flags)).flatten := by
      rcases List.mem_append.mp hin with h | h
      · exact h
      · rw [List.mem_singleton] at h; cases h
    have hpw : (((pendentesOf db limite).enumFrom 1).map Prod.snd).Pairwise
        (· < ·) := by
      rw [List.enumFrom_map_snd]
      exact (List.chain'_iff_pairwise).mp hpend
    obtain ⟨pre, post, heq, hpost⟩ := ckpt_decomp db flags p _ hpw hin'
    refine ⟨pre, post ++ [TrainEvent.saveAll], ?_, ?_⟩
    · rw [htr', heq, List.append_assoc]
      rfl
    · intro e he
      rcases List.mem_append.mp he with he | he
      · exact hpost e he
      · rw [List.mem_singleton] at he
        subst he
        simp [TrainEvent.posOf]

/-- C7 witness: the invariants instantiated on a concrete three-draw store. -/
theorem C7_witness :
    (ckptWrites trC7).Chain' (· < ·) ∧
    (∀ p ∈ ckptWrites trC7, dbC7.ck < p) ∧
    (∀ p, TrainEvent.ckpt p ∈ trC7 →
      ∃ pre post, trC7 = pre ++ TrainEvent.ckpt p :: post ∧
        ∀ e ∈ post, e.posOf ≠ some p) :=
  C7_checkpoint_monotone dbC7 none flagsOne trC7
    (by norm_num [fetchAllConcursos, dbC7, List.chain'_cons,
      List.chain'_singleton]) (by rfl)

/-- C8 counterexample: with stored draws `100, 102, 103` and checkpoint `0`,
position `100` is pending and its next-position outcome (draw `101`) is
unavailable, so it is skipped — yet the loop then processes position `102`
and writes checkpoint `102`, advancing the checkpoint past the skipped
position `100` (the run's trace `trC8` holds no event of position `100`). -/
theorem C8_counterexample :
    100 ∈ pendentesOf dbC8 none ∧
    fetchResult dbC8 101 = none ∧
    treinarPendencias dbC8 none flagsOne = .ok trC8 ∧
    finalCkpt trC8 dbC8.ck = 102 ∧
    dbC8.ck ≤ 100 ∧ 100 < 102 := by
  exact ⟨by decide, rfl, rfl, rfl, by decide, by decide⟩

/-- C8 (amended): a pending position whose next-position outcome is
unavailable is skipped — no candidate evaluation, persistence or learning
event is emitted for it and no checkpoint write records it — but the
checkpoint may still advance past it when a later pending position is
processed: with stored draws `100, 102, 103` and checkpoint `0`, position
`100` is skipped while the final checkpoint of the run is `102`. -/
theorem C8_skipped_position (db : TrainDb) (limite : Option ℕ)
    (flags : ℕ → List Bool) (tr : List TrainEvent) (p : ℕ)
    (htr : treinarPendencias db limite flags = .ok tr)
    (hmiss : fetchResult db (p + 1) = none) :
    (∀ e ∈ tr, e.posOf ≠ some p) ∧ TrainEvent.ckpt p ∉ tr ∧
    finalCkpt trC8 dbC8.ck = 102 := by
  have h1 : ∀ e ∈ tr, e.posOf ≠ some p := by
    intro e he
    rw [treinar_trace db limite flags tr htr] at he
    rcases List.mem_append.mp he with he | he
    · rcases flatten_posOf db flags _ e he with ⟨q, _, hpos, hsome⟩ | rfl
      · rw [hpos]
        intro hcontra
        have hq : q.2 = p := Option.some.inj hcontra
        rw [hq, hmiss] at hsome
        cases hsome
      · simp [TrainEvent.posOf]
    · rw [List.mem_singleton] at he
      subst he
      simp [TrainEvent.posOf]
  refine ⟨h1, ?_, rfl⟩
  intro hin
  exact absurd rfl (h1 _ hin)

/-- C8 witness: the amended statement applied to the gapped store `dbC8` at
the skipped position `100`. -/
theorem C8_witness :
    (∀ e ∈ trC8, e.posOf ≠ some 100) ∧ TrainEvent.ckpt 100 ∉ trC8 ∧
    finalCkpt trC8 dbC8.ck = 102 :=
  C8_skipped_position dbC8 none flagsOne trC8 100 rfl rfl

/-! ### C9: dict-rebuild lemmas and the state round trip -/

theorem akeys_cons (q : ℤ × ℚ) (t : List (ℤ × ℚ)) :
    akeys (q :: t) = q.1 :: akeys t := rfl

theorem aset_cons (q : ℤ × ℚ) (t : List (ℤ × ℚ)) (k : ℤ) (v : ℚ) :
    aset (q :: t) k v = if q.1 = k then (k, v) :: t else q :: aset t k v := rfl

theorem aset_cons_ne (q : ℤ × ℚ) (t : List (ℤ × ℚ)) (k : ℤ) (v : ℚ)
    (h : ¬ q.1 = k) : aset (q :: t) k v = q :: aset t k v := by
  rw [aset_cons, if_neg h]

theorem aset_not_mem_append (k : ℤ) (v : ℚ) :
    ∀ M : List (ℤ × ℚ), k ∉ akeys M → aset M k v = M ++ [(k, v)] := by
  intro M
  induction M with
  | nil => intro _; rfl
  | cons q t ih =>
    intro hk
    rw [akeys_cons, List.mem_cons] at hk
    push_neg at hk
    rw [aset_cons_ne q t k v (fun hq => hk.1 hq.symm), ih hk.2]
    rfl

theorem akeys_aset_mem (k : ℤ) (v : ℚ) :
    ∀ L : List (ℤ × ℚ), k ∈ akeys L → akeys (aset L k v) = akeys L := by
  intro L
  induction L with
  | nil => intro h; cases h
  | cons q t ih =>
    intro hk
    by_cases hq : q.1 = k
    · rw [aset_cons, if_pos hq, akeys_cons, akeys_cons, hq]
    · have hkt : k ∈ akeys t := by
        rw [akeys_cons, List.mem_cons] at hk
        rcases hk with h1 | h2
        · exact absurd h1.symm hq
        · exact h2
      rw [aset_cons, if_neg hq, akeys_cons, akeys_cons, ih hkt]

theorem aset_append_left (k : ℤ) (v : ℚ) :
    ∀ P E : List (ℤ × ℚ), k ∈ akeys P →
      aset (P ++ E) k v = aset P k v ++ E := by
  intro P
  induction P with
  | nil => intro E h; cases h
  | cons q t ih =>
    intro E hk
    rw [List.cons_append, aset_cons, aset_cons]
    by_cases hq : q.1 = k
    · rw [if_pos hq, if_pos hq, List.cons_append]
    · have hkt : k ∈ akeys t := by
        rw [akeys_cons, List.mem_cons] at hk
        rcases hk with h1 | h2
        · exact absurd h1.symm hq
        · exact h2
      rw [if_neg hq, if_neg hq, ih E hkt, List.cons_append]

theorem aset_append_right (k : ℤ) (v : ℚ) :
    ∀ P E : List (ℤ × ℚ), k ∉ akeys P →
      aset (P ++ E) k v = P ++ aset E k v := by
  intro P
  induction P with
  | nil => intro E _; rfl
  | cons q t ih =>
    intro E hk
    rw [akeys_cons, List.mem_cons] at hk
    push_neg at hk
    rw [List.cons_append, aset_cons_ne q (t ++ E) k v (fun hq => hk.1 hq.symm),
      ih E hk.2, List.cons_append]

theorem fold_aset_cons_ne (a : ℤ × ℚ) :
    ∀ (P base : List (ℤ × ℚ)), (∀ q ∈ P, q.1 ≠ a.1) →
      P.foldl (fun f p => aset f p.1 p.2) (a :: base)
        = a :: P.foldl (fun f p => aset f p.1 p.2) base := by
  intro P
  induction P with
  | nil => intro base _; rfl
  | cons p t ih =>
    intro base h
    simp only [List.foldl_cons]
    rw [aset_cons_ne a base p.1 p.2
      (fun he => (h p (List.mem_cons_self p t)) he.symm)]
    exact ih (aset base p.1 p.2) (fun q hq => h q (List.mem_cons_of_mem p hq))

theorem fold_aset_self :
    ∀ (P base : List (ℤ × ℚ)), akeys base = akeys P → (akeys P).Nodup →
      P.foldl (fun f p => aset f p.1 p.2) base = P := by
  intro P
  induction P with
  | nil =>
    intro base hkeys _
    have hb : base = [] := by
      simpa [akeys] using hkeys
    rw [hb]
    rfl
  | cons p t ih =>
    intro base hkeys hnd
    cases base with
    | nil => cases hkeys
    | cons b bt =>
      rw [akeys_cons, akeys_cons] at hkeys
      injection hkeys with hb ht
      rw [akeys_cons, List.nodup_cons] at hnd
      simp only [List.foldl_cons]
      rw [show aset (b :: bt) p.1 p.2 = (p.1, p.2) :: bt from by
        rw [aset_cons, if_pos hb]]
      rw [show ((p.1, p.2) : ℤ × ℚ) = p from rfl]
      rw [fold_aset_cons_ne p t bt (fun q hq he => hnd.1 (by
        rw [← he]
        exact List.mem_map_of_mem Prod.fst hq))]
      rw [ih bt ht hnd.2]

theorem fold_aset_fresh :
    ∀ (E M : List (ℤ × ℚ)), (∀ q ∈ E, q.1 ∉ akeys M) → (akeys E).Nodup →
      E.foldl (fun f p => aset f p.1 p.2) M = M ++ E := by
  intro E
  induction E with
  | nil => intro M _ _; rw [List.foldl_nil, List.append_nil]
  | cons e E' ih =>
    intro M hfresh hnd
    rw [akeys_cons, List.nodup_cons] at hnd
    simp only [List.foldl_cons]
    rw [aset_not_mem_append e.1 e.2 M (hfresh e (List.mem_cons_self e E'))]
    rw [show ((e.1, e.2) : ℤ × ℚ) = e from rfl]
    have hfresh2 : ∀ q ∈ E', q.1 ∉ akeys (M ++ [e]) := by
      intro q hq
      rw [show akeys (M ++ [e]) = akeys M ++ [e.1] from by simp [akeys]]
      rw [List.mem_append, List.mem_singleton]
      push_neg
      refine ⟨hfresh q (List.mem_cons_of_mem e hq), fun he => hnd.1 ?_⟩
      rw [← he]
      exact List.mem_map_of_mem Prod.fst hq
    rw [ih (M ++ [e]) hfresh2 hnd.2, List.append_assoc]
    rfl

theorem rebuild_eq (P E : List (ℤ × ℚ))
    (hP : akeys P = akeys universeZeros)
    (hnd : (akeys (P ++ E)).Nodup) :
    (P ++ E).foldl (fun f p => aset f p.1 p.2) universeZeros = P ++ E := by
  have happ : akeys (P ++ E) = akeys P ++ akeys E := by simp [akeys]
  rw [happ, List.nodup_append] at hnd
  rw [List.foldl_append]
  rw [fold_aset_self P universeZeros hP.symm hnd.1]
  exact fold_aset_fresh E P
    (fun q hq he => hnd.2.2 he (List.mem_map_of_mem Prod.fst hq)) hnd.2.1

theorem freqKeysInv_aset (L : List (ℤ × ℚ)) (k : ℤ) (v : ℚ)
    (h : freqKeysInv L) : freqKeysInv (aset L k v) := by
  obtain ⟨P, E, hL, hP, hnd⟩ := h
  subst hL
  have happ : akeys (P ++ E) = akeys P ++ akeys E := by simp [akeys]
  unfold freqKeysInv
  by_cases hkP : k ∈ akeys P
  · have hkL : k ∈ akeys (P ++ E) := by
      rw [happ]
      exact List.mem_append_left _ hkP
    refine ⟨aset P k v, E, aset_append_left k v P E hkP, ?_, ?_⟩
    · rw [akeys_aset_mem k v P hkP]
      exact hP
    · rw [akeys_aset_mem k v (P ++ E) hkL]
      exact hnd
  · by_cases hkE : k ∈ akeys E
    · have hkL : k ∈ akeys (P ++ E) := by
        rw [happ]
        exact List.mem_append_right _ hkE
      refine ⟨P, aset E k v, aset_append_right k v P E hkP, hP, ?_⟩
      rw [akeys_aset_mem k v (P ++ E) hkL]
      exact hnd
    · have hkL : k ∉ akeys (P ++ E) := by
        rw [happ, List.mem_append]
        tauto
      refine ⟨P, E ++ [(k, v)], ?_, hP, ?_⟩
      · rw [aset_not_mem_append k v (P ++ E) hkL, List.append_assoc]
      · rw [aset_not_mem_append k v (P ++ E) hkL]
        rw [show akeys ((P ++ E) ++ [(k, v)]) = akeys (P ++ E) ++ [k] from by
          simp [akeys]]
        rw [List.nodup_append]
        refine ⟨hnd, List.nodup_singleton k, ?_⟩
        intro a ha hmem
        rw [List.mem_singleton] at hmem
        subst hmem
        exact hkL ha

theorem freqKeysInv_foldIncr (c : ℚ) :
    ∀ (ds : List ℤ) (L : List (ℤ × ℚ)), freqKeysInv L →
      freqKeysInv (ds.foldl (fun f d => aincr f d c) L) := by
  intro ds
  induction ds with
  | nil => intro L h; exact h
  | cons d ds ih =>
    intro L h
    rw [List.foldl_cons]
    exact ih _ (freqKeysInv_aset L d _ h)

theorem fgLearn_blob (s : FG) (jogo resultado : List ℤ) (pontos : ℤ) :
    (fgLearn s jogo resultado pontos).blob
      = some ((fgLearn s jogo resultado pontos).freq,
          (fgLearn s jogo resultado pontos).total) := rfl

theorem fgLearn_freqInv (s : FG) (jogo resultado : List ℤ) (pontos : ℤ)
    (h : freqKeysInv s.freq) :
    freqKeysInv (fgLearn s jogo resultado pontos).freq := by
  unfold fgLearn
  dsimp only
  split
  · dsimp only
    apply freqKeysInv_foldIncr
    split
    · dsimp only
      exact freqKeysInv_foldIncr 1 resultado s.freq h
    · exact h
  · split
    · dsimp only
      exact freqKeysInv_foldIncr 1 resultado s.freq h
    · exact h

theorem fgInv_init : fgInv initFG := by
  refine ⟨⟨universeZeros, [], (List.append_nil _).symm, rfl, ?_⟩, Or.inr rfl⟩
  show (akeys universeZeros).Nodup
  decide

theorem fgInv_learn (s : FG) (jogo resultado : List ℤ) (pontos : ℤ)
    (h : fgInv s) : fgInv (fgLearn s jogo resultado pontos) :=
  ⟨fgLearn_freqInv s jogo resultado pontos h.1,
    Or.inl (fgLearn_blob s jogo resultado pontos)⟩

theorem fgInv_run_aux :
    ∀ (hist : List LearnCall) (s : FG), fgInv s →
      fgInv (hist.foldl (fun s a => fgLearn s a.jogo a.resultado a.pontos) s) := by
  intro hist
  induction hist with
  | nil => intro s h; exact h
  | cons a hist ih =>
    intro s h
    rw [List.foldl_cons]
    exact ih _ (fgInv_learn s a.jogo a.resultado a.pontos h)

theorem fgInv_run (hist : List LearnCall) : fgInv (fgRun hist) :=
  fgInv_run_aux hist initFG fgInv_init

theorem load_save_eq (s : FG) (h : fgInv s) :
    loadStateFG (saveStateFG s) = s := by
  obtain ⟨hfreq, hblob⟩ := h
  rcases hblob with hb | hinit
  · obtain ⟨P, E, hL, hP, hnd⟩ := hfreq
    have hrebuild :
        s.freq.foldl (fun f p => aset f p.1 p.2) universeZeros = s.freq := by
      rw [hL]
      exact rebuild_eq P E hP (hL ▸ hnd)
    show loadStateFG s.blob = s
    rw [hb]
    show FG.mk (s.freq.foldl (fun f p => aset f p.1 p.2) universeZeros)
      s.total (some (s.freq, s.total)) = s
    rw [hrebuild, ← hb]
  · rw [hinit]
    rfl

/-- C9 counterexample: the round-trip law is not universal over the
registered brains — `HeuristicStepSequencesBrain` is lossy.  After one
`generate` call the original brain scores its own game from the cached meta
(`min(1, 0.35 + min(0.6, 0/15) + min(0.2, 0)) = 0.35`), but `save_state`
persists only `self.state`, so the reloaded brain has an empty
`_recent_meta` and returns the `0.4` no-meta default: the two `score_game`
outputs differ on the same input. -/
theorem C9_counterexample :
    scoreGameSS ssOrig jogoSS = 35/100 ∧
    scoreGameSS (reloadSS ssOrig) jogoSS = 4/10 ∧
    scoreGameSS (reloadSS ssOrig) jogoSS ≠ scoreGameSS ssOrig jogoSS := by
  have hne : ¬([1, 3, 5, 6, 8, 9, 10, 12, 14, 15, 17, 18, 19, 21, 23] :
    List ℤ) = [] := by decide
  have h1 : scoreGameSS ssOrig jogoSS = 35/100 := by
    norm_num [scoreGameSS, ssOrig, jogoSS, metaSSP1, min_def, hne,
      List.find?, (by decide : ¬("P1-s15" : String) = "")]
  have h2 : scoreGameSS (reloadSS ssOrig) jogoSS = 4/10 := by
    norm_num [scoreGameSS, reloadSS, ssOrig, jogoSS, hne, List.find?]
  refine ⟨h1, h2, ?_⟩
  rw [h1, h2]
  norm_num

/-- C9 (amended): the `save_state`/`load_state` round trip is lossless for
`StatFreqGlobalBrain` — for every brain state reachable from a fresh brain by
any history of `learn` calls, loading the saved state restores the in-memory
state exactly, and the restored brain's `score_game`, `generate` (on the same
random stream) and `evaluate_context` outputs coincide with the original
brain's.  (It is not lossless for every registered brain: see the
step-sequences counterexample above.) -/
theorem C9_state_roundtrip (hist : List LearnCall) :
    loadStateFG (saveStateFG (fgRun hist)) = fgRun hist ∧
    (∀ jogo, scoreGameFG (loadStateFG (saveStateFG (fgRun hist))) jogo
        = scoreGameFG (fgRun hist) jogo) ∧
    (∀ size n flat pyRound rnd,
      generateFG (loadStateFG (saveStateFG (fgRun hist))) size n flat pyRound rnd
        = generateFG (fgRun hist) size n flat pyRound rnd) ∧
    evaluateContextFG (loadStateFG (saveStateFG (fgRun hist)))
      = evaluateContextFG (fgRun hist) := by
  have h := load_save_eq (fgRun hist) (fgInv_run hist)
  exact ⟨h, fun jogo => by rw [h],
    fun size n flat pyRound rnd => by rw [h], by rw [h]⟩

end MegaSorte
